import Mathlib

/-!
Verification development for the dailies-review reconciliation core of the
`dna` repository, i.e. the module
`experimental/spi/note_assistant_v2/backend/tools/combine_data_from_gmeet_and_sg.py`.

The Python functions are shallowly embedded as executable Lean definitions.
Python strings are Lean `String`s; Python's lexicographic string comparison is
modelled by `strLtB` on the underlying character lists (code-point order, as in
CPython for the ASCII data handled here).  Python `dict` objects that are
mutated through shared references (the `current_discussion` /
`discussions[-1]` aliasing in `analyze_version_discussions`) are modelled by a
store of `Discussion` records addressed by index, so that mutation through one
alias is visible through the other, exactly as in the source.
-/

-- ### Python string primitives

/-- The whitespace characters stripped by Python's `str.strip()` and ignored
around `int()` literals (ASCII subset; the inputs handled by the tool are
ASCII). -/
def isPySpace (c : Char) : Bool :=
  c = ' ' || c = '\t' || c = '\n' || c = '\r' || c = '\x0b' || c = '\x0c'

/-- Lexicographic (code-point) strict comparison of character lists: Python's
`<` on `str`. -/
def strLtB : List Char → List Char → Bool
  | [], [] => false
  | [], _ :: _ => true
  | _ :: _, [] => false
  | a :: as, b :: bs =>
    if a.toNat < b.toNat then true
    else if b.toNat < a.toNat then false
    else strLtB as bs

/-- Python `a < b` on strings. -/
def pyStrLt (a b : String) : Bool := strLtB a.data b.data

/-- Python `a <= b` on strings (total order, so `a <= b` iff `not (b < a)`). -/
def pyStrLe (a b : String) : Bool := !(strLtB b.data a.data)

/-- Decimal digit value of a character, if it is a digit. -/
def digVal (c : Char) : Option Nat :=
  if c.isDigit then some (c.toNat - 48) else none

/-- Digit tail of a Python integer literal: digits with single underscores
allowed between digits. -/
def pyDigitsAux : List Char → Nat → Option Nat
  | [], acc => some acc
  | c :: rest, acc =>
    if c = '_' then
      match rest with
      | [] => none
      | d :: rest2 =>
        match digVal d with
        | some v => pyDigitsAux rest2 (acc * 10 + v)
        | none => none
    else
      match digVal c with
      | some v => pyDigitsAux rest (acc * 10 + v)
      | none => none

/-- Nonempty digit body of a Python integer literal. -/
def pyDigits : List Char → Option Nat
  | [] => none
  | c :: rest =>
    match digVal c with
    | some v => pyDigitsAux rest v
    | none => none

/-- Python `str.strip()` on a character list. -/
def pyStripChars (cs : List Char) : List Char :=
  ((cs.dropWhile isPySpace).reverse.dropWhile isPySpace).reverse

/-- Python `int(s)` on a string given as a character list: optional surrounding
whitespace, optional sign, then a digit body.  Returns `none` where Python
raises `ValueError`. -/
def pyInt (cs : List Char) : Option Int :=
  match pyStripChars cs with
  | [] => none
  | c :: rest =>
    if c = '+' then (pyDigits rest).map (fun n => (n : Int))
    else if c = '-' then (pyDigits rest).map (fun n => -(n : Int))
    else (pyDigits (c :: rest)).map (fun n => (n : Int))

/-- Python `s.split(sep)` for a single-character separator. -/
def pySplit (sep : Char) : List Char → List (List Char)
  | [] => [[]]
  | c :: rest =>
    if c = sep then [] :: pySplit sep rest
    else
      match pySplit sep rest with
      | [] => [[c]]
      | p :: ps => (c :: p) :: ps

-- ### Timestamp utilities (source: `parse_timestamp`, `calculate_time_difference`)

/-- `parse_timestamp`: split on `:`; on exactly three parts convert each with
`int` and build `datetime(2000, 1, 1, hours, minutes, seconds)`.  The
`datetime` constructor raises `ValueError` unless `0 <= hours <= 23`,
`0 <= minutes <= 59`, `0 <= seconds <= 59`; the surrounding `try` turns any
such error into `None`.  The resulting instant is represented by its offset in
seconds from the fixed reference date. -/
def parse_timestamp (timestamp_str : String) : Option Nat :=
  if timestamp_str = "" then none
  else
    match pySplit ':' timestamp_str.data with
    | [a, b, c] =>
      match pyInt a, pyInt b, pyInt c with
      | some hours, some minutes, some seconds =>
        if 0 ≤ hours ∧ hours < 24 ∧ 0 ≤ minutes ∧ minutes < 60 ∧ 0 ≤ seconds ∧ seconds < 60 then
          some (hours.toNat * 3600 + minutes.toNat * 60 + seconds.toNat)
        else none
      | _, _, _ => none
    | _ => none

/-- `calculate_time_difference`: difference in seconds, `0` when either
timestamp fails to parse.  The Python float is integer-valued here (whole
seconds), so it is modelled as `Int`. -/
def calculate_time_difference (start_time end_time : String) : Int :=
  match parse_timestamp start_time, parse_timestamp end_time with
  | some s, some e => (e : Int) - (s : Int)
  | _, _ => 0

-- ### Data model

/-- One row of `chronological_order` as built by `load_transcript_data`:
`timestamp`, `speaker`, `text` and the extracted `version_num` (`none` models
Python `None`). -/
structure Entry where
  timestamp : String
  speaker : String
  text : String
  version_num : Option String
deriving DecidableEq, Inhabited

/-- The discussion dict built by `analyze_version_discussions`. -/
structure Discussion where
  version_id : String
  start_time : String
  end_time : String
  conversations : List Entry
  reference_versions : List (String × String)
  is_sg_version : Bool
deriving DecidableEq, Inhabited

/-- The ShotGrid table `sg_data`, modelled as an association list from version
id to the `notes` field (the only value field the functions verified here
read).  Keys are unique (it is a Python dict). -/
abbrev SgData := List (String × String)

/-- The keys of `sg_data`. -/
def sgKeys (sg : SgData) : List String := sg.map Prod.fst

/-- The version id of an entry, with Python falsiness: `None` and `""` both
count as "no version". -/
def vOf (e : Entry) : String := e.version_num.getD ""

-- ### Segmenter state

/-- State of the loop in `analyze_version_discussions`.  `store` holds every
discussion dict ever created; `finalized` is the `discussions` list (as
indices into the store) and `active` is `current_discussion` (`none` models
Python `None`).  Indices make the source's reference aliasing
(`current_discussion = discussions[-1]`) explicit. -/
structure SegState where
  store : List Discussion
  finalized : List Nat
  active : Option Nat
deriving DecidableEq, Inhabited

/-- Dereference a discussion index. -/
def SegState.getDisc (st : SegState) (i : Nat) : Discussion := st.store.getD i default

/-- Overwrite a discussion in the store (mutation of the shared dict). -/
def SegState.setDisc (st : SegState) (i : Nat) (d : Discussion) : SegState :=
  { st with store := st.store.set i d }

-- ### The segmenter (source: `analyze_version_discussions`, lines 156-277)

/-- The merge of a brief discussion into the previous main discussion
(source lines 209-219, repeated verbatim at lines 264-273): append a
reference entry unless the id is already referenced or equals the target's
own id, extend the target's `conversations` with the brief discussion's, and
raise the target's `end_time` if the brief one's is later.  Reads are
re-issued between mutations, as dict accesses are in the source, so the case
`curIdx = lastIdx` (aliased `current_discussion`) behaves exactly like the
Python original. -/
def mergeIntoLast (st : SegState) (curIdx lastIdx : Nat) : SegState :=
  let prev := st.getDisc lastIdx
  let cur := st.getDisc curIdx
  let st1 :=
    if cur.version_id ∉ prev.reference_versions.map Prod.fst ∧
        cur.version_id ≠ prev.version_id then
      st.setDisc lastIdx
        { prev with reference_versions := prev.reference_versions ++ [(cur.version_id, cur.start_time)] }
    else st
  let prev1 := st1.getDisc lastIdx
  let cur1 := st1.getDisc curIdx
  let st2 := st1.setDisc lastIdx { prev1 with conversations := prev1.conversations ++ cur1.conversations }
  let prev2 := st2.getDisc lastIdx
  let cur2 := st2.getDisc curIdx
  if pyStrLt prev2.end_time cur2.end_time then
    st2.setDisc lastIdx { prev2 with end_time := cur2.end_time }
  else st2

/-- Source lines 200-222: on a switch, either merge the active discussion
into the last finalized one (when it was brief and some discussion has been
finalized) or finalize it by appending it to `discussions`. -/
def mergeOrFinalize (reference_threshold : Int) (st : SegState) (i : Nat) : SegState :=
  let cur := st.getDisc i
  let current_duration := calculate_time_difference cur.start_time cur.end_time
  match st.finalized.getLast? with
  | some lastIdx =>
    if current_duration < reference_threshold then mergeIntoLast st i lastIdx
    else { st with finalized := st.finalized ++ [i] }
  | none => { st with finalized := st.finalized ++ [i] }

/-- Source lines 224-254: after the merge-or-finalize step, start a new
discussion for a known version, or fold an unknown-version event into the
last finalized discussion (which then also becomes the active discussion,
through the alias `current_discussion = discussions[-1]`), or - when no
discussion has been finalized - provisionally treat the unknown version as a
main discussion. -/
def startOrReference (sg : SgData) (st : SegState) (e : Entry) : SegState :=
  let v := vOf e
  let t := e.timestamp
  if v ∈ sgKeys sg then
    { st with
        store := st.store ++ [⟨v, t, t, [e], [], true⟩],
        active := some st.store.length }
  else
    match st.finalized.getLast? with
    | some j =>
      let last := st.getDisc j
      let st1 :=
        if v ∉ last.reference_versions.map Prod.fst ∧ v ≠ last.version_id then
          st.setDisc j { last with reference_versions := last.reference_versions ++ [(v, t)] }
        else st
      let last1 := st1.getDisc j
      let st2 := st1.setDisc j { last1 with conversations := last1.conversations ++ [e], end_time := t }
      { st2 with active := some j }
    | none =>
      { st with
          store := st.store ++ [⟨v, t, t, [e], [], false⟩],
          active := some st.store.length }

/-- The loop body of `analyze_version_discussions` (source lines 166-254)
for one entry of `chronological_order`. -/
def stepEntry (sg : SgData) (reference_threshold : Int) (st : SegState) (e : Entry) : SegState :=
  if vOf e = "" ∨ e.timestamp = "" then
    match st.active with
    | some i =>
      let cur := st.getDisc i
      st.setDisc i { cur with conversations := cur.conversations ++ [e] }
    | none => st
  else
    match st.active with
    | none =>
      if vOf e ∈ sgKeys sg then
        { st with
            store := st.store ++ [⟨vOf e, e.timestamp, e.timestamp, [e], [], true⟩],
            active := some st.store.length }
      else st
    | some i =>
      let cur := st.getDisc i
      if vOf e = cur.version_id then
        st.setDisc i { cur with conversations := cur.conversations ++ [e], end_time := e.timestamp }
      else
        startOrReference sg (mergeOrFinalize reference_threshold st i) e

/-- Source lines 256-275: handle the final discussion at end of stream.  Note
the extra conjunct `is_sg_version` that the mid-stream rule (lines 200-222)
does not have. -/
def finalize_final (reference_threshold : Int) (st : SegState) : SegState :=
  match st.active with
  | none => st
  | some i =>
    let cur := st.getDisc i
    let current_duration := calculate_time_difference cur.start_time cur.end_time
    match st.finalized.getLast? with
    | some lastIdx =>
      if current_duration < reference_threshold ∧ cur.is_sg_version = true then
        mergeIntoLast st i lastIdx
      else { st with finalized := st.finalized ++ [i] }
    | none => { st with finalized := st.finalized ++ [i] }

/-- The initial loop state: no discussions, no `current_discussion`. -/
def initSeg : SegState := ⟨[], [], none⟩

/-- The whole loop of `analyze_version_discussions` over the event stream. -/
def runSeg (sg : SgData) (reference_threshold : Int) (events : List Entry) : SegState :=
  events.foldl (stepEntry sg reference_threshold) initSeg

/-- `analyze_version_discussions`: run the loop, finalize the last active
discussion, and return the `discussions` list (dereferencing the store). -/
def analyze_version_discussions (events : List Entry) (sg : SgData)
    (reference_threshold : Int) : List Discussion :=
  match events with
  | [] => []
  | _ :: _ =>
    let st := finalize_final reference_threshold (runSeg sg reference_threshold events)
    st.finalized.map st.getDisc

-- ### Stable sorting (Python `sorted` is a stable sort by key)

/-- Insert an element coming before the elements of the (already sorted)
list in the original order: it goes in front of the first element it is
`le`-related to, so equal keys keep their original order. -/
def insertStable {α : Type} (le : α → α → Bool) (x : α) : List α → List α
  | [] => [x]
  | y :: ys => if le x y then x :: y :: ys else y :: insertStable le x ys

/-- A stable sort, modelling Python `sorted(l, key=...)`. -/
def sortStable {α : Type} (le : α → α → Bool) (l : List α) : List α :=
  l.foldr (insertStable le) []

-- ### `format_conversation` (source lines 93-114)

/-- `format_conversation`: sort by timestamp (stable), emit
`"{speaker}: {text}"` for stripped nonempty text, the
`"[conversation occurred]"` placeholder when there is a speaker other than
the `'Unknown'` default, nothing otherwise; join with newlines. -/
def format_conversation (conversations : List Entry) : String :=
  match conversations with
  | [] => ""
  | _ :: _ =>
    let sorted_conversations :=
      sortStable (fun a b => pyStrLe a.timestamp b.timestamp) conversations
    let formatted_lines := sorted_conversations.filterMap (fun conv =>
      let speaker := conv.speaker
      let text : String := ⟨pyStripChars conv.text.data⟩
      if text ≠ "" then some (speaker ++ ": " ++ text)
      else if speaker ≠ "" ∧ speaker ≠ "Unknown" then
        some (speaker ++ ": [conversation occurred]")
      else none)
    String.intercalate "\n" formatted_lines

-- ### `get_earliest_timestamp` (source lines 117-123)

/-- `get_earliest_timestamp`: minimum (Python string order) of the nonempty
timestamps, or `""`. -/
def get_earliest_timestamp (conversations : List Entry) : String :=
  match conversations with
  | [] => ""
  | _ :: _ =>
    let timestamps := (conversations.map (·.timestamp)).filter (fun t => !(t == ""))
    match timestamps with
    | [] => ""
    | t :: rest => rest.foldl (fun acc x => if pyStrLt x acc then x else acc) t

-- ### Output rows (source: `process_transcript_versions_with_time_analysis`

/-- One row of the output CSV. -/
structure OutputRow where
  timestamp : String
  version_id : String
  conversation : String
  sg_summary : String
  reference_versions : String
deriving DecidableEq, Inhabited

/-- Serialization of `reference_versions` (source line 328): comma-joined
`id:timestamp` pairs (the join of an empty list is already `''`). -/
def refsString (refs : List (String × String)) : String :=
  String.intercalate "," (refs.map (fun p => p.1 ++ ":" ++ p.2))

/-- Source lines 293-309: the events collected before the first entry whose
version is a known SG version (the loop breaks at that entry). -/
def preDiscussionConversations (events : List Entry) (sg : SgData) : List Entry :=
  events.takeWhile (fun e => !(decide (vOf e ≠ "" ∧ vOf e ∈ sgKeys sg)))

/-- Source lines 280-338, `process_transcript_versions_with_time_analysis`:
one output row per discussion whose version is a known SG version, the
pre-discussion conversations being prepended to the first row produced.
Returns the rows together with `processed_sg_versions` (as a list whose
membership is what matters; the source uses a set). -/
def process_transcript_versions (events : List Entry) (sg : SgData)
    (reference_threshold : Int) : List OutputRow × List String :=
  let discussions := analyze_version_discussions events sg reference_threshold
  let pre := preDiscussionConversations events sg
  discussions.foldl (fun acc d =>
    if d.version_id ∈ sgKeys sg then
      let all_conversations :=
        if acc.1 = [] ∧ pre ≠ [] then pre ++ d.conversations else d.conversations
      (acc.1 ++
        [{ timestamp := get_earliest_timestamp all_conversations,
           version_id := d.version_id,
           conversation := format_conversation all_conversations,
           sg_summary := (sg.lookup d.version_id).getD "",
           reference_versions := refsString d.reference_versions }],
       acc.2 ++ [d.version_id])
    else acc) ([], [])

/-- Python `str.isdigit()` (ASCII): nonempty and all digits. -/
def pyIsdigit (s : String) : Bool := !s.data.isEmpty && s.data.all Char.isDigit

/-- Numeric value of a digit string. -/
def natOfDigits (l : List Char) : Nat := l.foldl (fun a c => a * 10 + (c.toNat - 48)) 0

/-- The sort key of source line 395: `int(x) if x.isdigit() else 0`. -/
def remainingKey (v : String) : Nat := if pyIsdigit v then natOfDigits v.data else 0

/-- Source `main`, lines 387-403: the rows from the transcript analysis
followed by a placeholder row for every SG version not processed, ordered by
numeric key.  (The source iterates a Python set, whose order is unspecified;
it is modelled here as the key-insertion order of `sg_data`, which the
claims do not depend on.) -/
def combine_output_rows (events : List Entry) (sg : SgData)
    (reference_threshold : Int) : List OutputRow :=
  let pr := process_transcript_versions events sg reference_threshold
  let remaining := (sgKeys sg).filter (fun k => !(decide (k ∈ pr.2)))
  let remaining_sorted :=
    sortStable (fun a b => decide (remainingKey a ≤ remainingKey b)) remaining
  pr.1 ++ remaining_sorted.map (fun v =>
    { timestamp := "", version_id := v, conversation := "",
      sg_summary := (sg.lookup v).getD "", reference_versions := "" })

-- ### Order lemmas for the Python string comparison

theorem strLtB_irrefl (l : List Char) : strLtB l l = false := by
  induction l with
  | nil => rfl
  | cons a as ih => simp [strLtB, ih]

theorem strLtB_nil_right (l : List Char) : strLtB l [] = false := by
  cases l <;> rfl

theorem strLtB_cons_iff {a b : Char} {as bs : List Char} :
    strLtB (a :: as) (b :: bs) = true ↔
      a.toNat < b.toNat ∨ (a.toNat = b.toNat ∧ strLtB as bs = true) := by
  simp only [strLtB]
  by_cases h1 : a.toNat < b.toNat
  · simp [h1]
  · by_cases h2 : b.toNat < a.toNat
    · simp only [if_neg h1, if_pos h2]
      constructor
      · intro h; exact absurd h (by simp)
      · rintro (h | ⟨h, -⟩) <;> omega
    · have heq : a.toNat = b.toNat := by omega
      simp [h1, h2, heq]

theorem strLtB_trans {l1 l2 l3 : List Char} (h1 : strLtB l1 l2 = true)
    (h2 : strLtB l2 l3 = true) : strLtB l1 l3 = true := by
  induction l1 generalizing l2 l3 with
  | nil =>
    cases l2 with
    | nil => exact absurd h1 (by simp [strLtB])
    | cons b bs =>
      cases l3 with
      | nil => exact absurd h2 (by simp [strLtB_nil_right])
      | cons c cs => simp [strLtB]
  | cons a as ih =>
    cases l2 with
    | nil => exact absurd h1 (by simp [strLtB_nil_right])
    | cons b bs =>
      cases l3 with
      | nil => exact absurd h2 (by simp [strLtB_nil_right])
      | cons c cs =>
        rw [strLtB_cons_iff] at h1 h2 ⊢
        rcases h1 with h1 | ⟨h1e, h1r⟩
        · rcases h2 with h2 | ⟨h2e, h2r⟩
          · exact Or.inl (by omega)
          · exact Or.inl (by omega)
        · rcases h2 with h2 | ⟨h2e, h2r⟩
          · exact Or.inl (by omega)
          · exact Or.inr ⟨by omega, ih h1r h2r⟩

theorem strLtB_asymm {l1 l2 : List Char} (h : strLtB l1 l2 = true) :
    strLtB l2 l1 = false := by
  by_contra hc
  have h2 : strLtB l2 l1 = true := by
    cases hx : strLtB l2 l1 with
    | false => exact absurd hx hc
    | true => rfl
  have := strLtB_trans h h2
  rw [strLtB_irrefl] at this
  exact absurd this (by simp)

theorem strLtB_not_trans {l1 l2 l3 : List Char} (h1 : strLtB l2 l1 = false)
    (h2 : strLtB l3 l2 = false) : strLtB l3 l1 = false := by
  induction l1 generalizing l2 l3 with
  | nil => exact strLtB_nil_right l3
  | cons a as ih =>
    cases l2 with
    | nil => exact absurd h1 (by simp [strLtB])
    | cons b bs =>
      cases l3 with
      | nil => exact absurd h2 (by simp [strLtB])
      | cons c cs =>
        have n1 : ¬ (b.toNat < a.toNat ∨ (b.toNat = a.toNat ∧ strLtB bs as = true)) := by
          rw [← strLtB_cons_iff]; simp [h1]
        have n2 : ¬ (c.toNat < b.toNat ∨ (c.toNat = b.toNat ∧ strLtB cs bs = true)) := by
          rw [← strLtB_cons_iff]; simp [h2]
        push_neg at n1 n2
        cases hg : strLtB (c :: cs) (a :: as) with
        | false => rfl
        | true =>
          rw [strLtB_cons_iff] at hg
          rcases hg with hg | ⟨hge, hgr⟩
          · omega
          · have hba : b.toNat = a.toNat := by omega
            have hcb : c.toNat = b.toNat := by omega
            have e1 : strLtB bs as = false := by
              have := n1.2 hba
              cases hx : strLtB bs as with
              | false => rfl
              | true => exact absurd hx this
            have e2 : strLtB cs bs = false := by
              have := n2.2 hcb
              cases hx : strLtB cs bs with
              | false => rfl
              | true => exact absurd hx this
            rw [ih e1 e2] at hgr
            exact absurd hgr (by simp)

theorem pyStrLe_refl (s : String) : pyStrLe s s = true := by
  simp [pyStrLe, strLtB_irrefl]

theorem pyStrLe_trans {a b c : String} (h1 : pyStrLe a b = true)
    (h2 : pyStrLe b c = true) : pyStrLe a c = true := by
  simp only [pyStrLe, Bool.not_eq_true'] at h1 h2 ⊢
  exact strLtB_not_trans h1 h2

theorem pyStrLe_empty (s : String) : pyStrLe "" s = true := by
  simp only [pyStrLe, Bool.not_eq_true']
  exact strLtB_nil_right s.data

theorem pyStrLe_of_pyStrLt {a b : String} (h : pyStrLt a b = true) :
    pyStrLe a b = true := by
  simp only [pyStrLt] at h
  simp only [pyStrLe, Bool.not_eq_true']
  exact strLtB_asymm h

-- ### Store access lemmas

theorem getDisc_setDisc (st : SegState) (i : Nat) (d : Discussion) (j : Nat) :
    (st.setDisc i d).getDisc j =
      if i = j ∧ i < st.store.length then d else st.getDisc j := by
  unfold SegState.getDisc SegState.setDisc
  simp only [List.getD_eq_getElem?_getD, List.getElem?_set]
  by_cases h1 : i = j
  · subst h1
    by_cases h2 : i < st.store.length
    · simp [h2]
    · simp [h2, List.getElem?_eq_none (Nat.le_of_not_lt h2)]
  · simp [h1]

theorem length_setDisc (st : SegState) (i : Nat) (d : Discussion) :
    (st.setDisc i d).store.length = st.store.length := by
  simp [SegState.setDisc]

theorem finalized_setDisc (st : SegState) (i : Nat) (d : Discussion) :
    (st.setDisc i d).finalized = st.finalized := rfl

theorem active_setDisc (st : SegState) (i : Nat) (d : Discussion) :
    (st.setDisc i d).active = st.active := rfl

theorem getDisc_append (st : SegState) (ds : List Discussion) (j : Nat)
    (h : j < st.store.length) :
    ({ st with store := st.store ++ ds, active := some st.store.length } : SegState).getDisc j =
      st.getDisc j := by
  unfold SegState.getDisc
  exact List.getD_append _ _ _ _ h

theorem List.set_set' {α : Type} (l : List α) (i : Nat) (a b : α) :
    (l.set i a).set i b = l.set i b := List.set_set a b l i

theorem setDisc_setDisc (st : SegState) (i : Nat) (d1 d2 : Discussion) :
    (st.setDisc i d1).setDisc i d2 = st.setDisc i d2 := by
  simp [SegState.setDisc, List.set_set]

theorem mergeIntoLast_finalized (st : SegState) (cI lI : Nat) :
    (mergeIntoLast st cI lI).finalized = st.finalized := by
  unfold mergeIntoLast
  dsimp only
  split_ifs <;> rfl

theorem mergeIntoLast_active (st : SegState) (cI lI : Nat) :
    (mergeIntoLast st cI lI).active = st.active := by
  unfold mergeIntoLast
  dsimp only
  split_ifs <;> rfl

theorem mergeIntoLast_length (st : SegState) (cI lI : Nat) :
    (mergeIntoLast st cI lI).store.length = st.store.length := by
  unfold mergeIntoLast
  dsimp only
  split_ifs <;> simp [length_setDisc]

theorem mergeIntoLast_getDisc_ne (st : SegState) (cI lI : Nat) (j : Nat) (hj : j ≠ lI) :
    (mergeIntoLast st cI lI).getDisc j = st.getDisc j := by
  unfold mergeIntoLast
  dsimp only
  have hlj : lI ≠ j := Ne.symm hj
  split_ifs <;> simp [getDisc_setDisc, length_setDisc, hlj]



theorem pyStrLt_irrefl (s : String) : pyStrLt s s = false := by
  simp [pyStrLt, strLtB_irrefl]

theorem mergeIntoLast_fields (st : SegState) (cI lI : Nat) : ∀ j : Nat,
    ((mergeIntoLast st cI lI).getDisc j).version_id = (st.getDisc j).version_id ∧
    ((mergeIntoLast st cI lI).getDisc j).start_time = (st.getDisc j).start_time ∧
    ((mergeIntoLast st cI lI).getDisc j).is_sg_version = (st.getDisc j).is_sg_version := by
  intro j
  unfold mergeIntoLast
  dsimp only
  split_ifs <;> simp [getDisc_setDisc, length_setDisc] <;> split_ifs <;>
    simp_all [getDisc_setDisc]

theorem mergeIntoLast_convs_last (st : SegState) (cI lI : Nat) (hl : lI < st.store.length) :
    ((mergeIntoLast st cI lI).getDisc lI).conversations =
      (st.getDisc lI).conversations ++ (st.getDisc cI).conversations := by
  by_cases hcl : cI = lI
  · subst hcl
    unfold mergeIntoLast
    dsimp only
    split_ifs <;> simp_all [getDisc_setDisc, setDisc_setDisc, length_setDisc, hl, pyStrLt_irrefl]
  · have hln : lI ≠ cI := fun h => hcl h.symm
    unfold mergeIntoLast
    dsimp only
    split_ifs <;> simp_all [getDisc_setDisc, setDisc_setDisc, length_setDisc, hl, hln]

theorem mergeIntoLast_refs_last (st : SegState) (cI lI : Nat) (hl : lI < st.store.length) :
    ((mergeIntoLast st cI lI).getDisc lI).reference_versions =
      if (st.getDisc cI).version_id ∉ (st.getDisc lI).reference_versions.map Prod.fst ∧
          (st.getDisc cI).version_id ≠ (st.getDisc lI).version_id then
        (st.getDisc lI).reference_versions ++
          [((st.getDisc cI).version_id, (st.getDisc cI).start_time)]
      else (st.getDisc lI).reference_versions := by
  by_cases hcl : cI = lI
  · subst hcl
    unfold mergeIntoLast
    dsimp only
    split_ifs <;> simp_all [getDisc_setDisc, setDisc_setDisc, length_setDisc, hl, pyStrLt_irrefl]
  · have hln : lI ≠ cI := fun h => hcl h.symm
    unfold mergeIntoLast
    dsimp only
    split_ifs <;> simp_all [getDisc_setDisc, setDisc_setDisc, length_setDisc, hl, hln]

theorem mergeIntoLast_end_last (st : SegState) (cI lI : Nat) (hl : lI < st.store.length) :
    ((mergeIntoLast st cI lI).getDisc lI).end_time =
      if pyStrLt (st.getDisc lI).end_time (st.getDisc cI).end_time then
        (st.getDisc cI).end_time
      else (st.getDisc lI).end_time := by
  by_cases hcl : cI = lI
  · subst hcl
    unfold mergeIntoLast
    dsimp only
    split_ifs <;> simp_all [getDisc_setDisc, setDisc_setDisc, length_setDisc, hl,
      pyStrLt_irrefl]
  · have hln : lI ≠ cI := fun h => hcl h.symm
    unfold mergeIntoLast
    dsimp only
    split_ifs <;> simp_all [getDisc_setDisc, setDisc_setDisc, length_setDisc, hl, hln]

-- ### Characterizations of the step functions

/-- Duration of the discussion at index `i`, as the source computes it. -/
def durOf (st : SegState) (i : Nat) : Int :=
  calculate_time_difference (st.getDisc i).start_time (st.getDisc i).end_time

theorem mergeOrFinalize_merge {R : Int} {st : SegState} {i lastIdx : Nat}
    (hlast : st.finalized.getLast? = some lastIdx) (hd : durOf st i < R) :
    mergeOrFinalize R st i = mergeIntoLast st i lastIdx := by
  unfold mergeOrFinalize
  rw [hlast]
  exact if_pos hd

theorem mergeOrFinalize_standalone {R : Int} {st : SegState} {i : Nat}
    (h : st.finalized.getLast? = none ∨ R ≤ durOf st i) :
    mergeOrFinalize R st i = { st with finalized := st.finalized ++ [i] } := by
  unfold mergeOrFinalize
  rcases h with h | h
  · rw [h]
  · cases hlast : st.finalized.getLast? with
    | none => rfl
    | some lastIdx =>
      dsimp only
      rw [if_neg (by unfold durOf at h; omega)]

theorem mergeOrFinalize_finalized_ne_nil (R : Int) (st : SegState) (i : Nat) :
    (mergeOrFinalize R st i).finalized ≠ [] := by
  unfold mergeOrFinalize
  cases hlast : st.finalized.getLast? with
  | none => simp
  | some lastIdx =>
    dsimp only
    split_ifs
    · rw [mergeIntoLast_finalized]
      intro hnil
      rw [hnil] at hlast
      exact absurd hlast (by simp)
    · simp

theorem mergeOrFinalize_active (R : Int) (st : SegState) (i : Nat) :
    (mergeOrFinalize R st i).active = st.active := by
  unfold mergeOrFinalize
  cases hlast : st.finalized.getLast? with
  | none => rfl
  | some lastIdx =>
    dsimp only
    split_ifs
    · exact mergeIntoLast_active st i lastIdx
    · rfl

theorem startOrReference_known {sg : SgData} {st : SegState} {e : Entry}
    (h : vOf e ∈ sgKeys sg) :
    startOrReference sg st e =
      { st with store := st.store ++ [⟨vOf e, e.timestamp, e.timestamp, [e], [], true⟩],
                active := some st.store.length } := by
  unfold startOrReference
  exact if_pos h

theorem startOrReference_orphan {sg : SgData} {st : SegState} {e : Entry}
    (h : vOf e ∉ sgKeys sg) (hlast : st.finalized.getLast? = none) :
    startOrReference sg st e =
      { st with store := st.store ++ [⟨vOf e, e.timestamp, e.timestamp, [e], [], false⟩],
                active := some st.store.length } := by
  unfold startOrReference
  rw [if_neg h, hlast]

theorem startOrReference_unknown {sg : SgData} {st : SegState} {e : Entry} {j : Nat}
    (h : vOf e ∉ sgKeys sg) (hlast : st.finalized.getLast? = some j)
    (hj : j < st.store.length) :
    (startOrReference sg st e).active = some j ∧
    (startOrReference sg st e).finalized = st.finalized ∧
    (startOrReference sg st e).store.length = st.store.length ∧
    ((startOrReference sg st e).getDisc j).version_id = (st.getDisc j).version_id ∧
    ((startOrReference sg st e).getDisc j).start_time = (st.getDisc j).start_time ∧
    ((startOrReference sg st e).getDisc j).is_sg_version = (st.getDisc j).is_sg_version ∧
    ((startOrReference sg st e).getDisc j).conversations =
      (st.getDisc j).conversations ++ [e] ∧
    ((startOrReference sg st e).getDisc j).end_time = e.timestamp ∧
    ((startOrReference sg st e).getDisc j).reference_versions =
      (if vOf e ∉ (st.getDisc j).reference_versions.map Prod.fst ∧
          vOf e ≠ (st.getDisc j).version_id then
        (st.getDisc j).reference_versions ++ [(vOf e, e.timestamp)]
      else (st.getDisc j).reference_versions) ∧
    (∀ j2, j2 ≠ j → (startOrReference sg st e).getDisc j2 = st.getDisc j2) := by
  unfold startOrReference
  rw [if_neg h, hlast]
  dsimp only
  split_ifs <;>
    simp_all [getDisc_setDisc, setDisc_setDisc, length_setDisc, hj, SegState.getDisc,
      SegState.setDisc] <;>
    intro j2 hj2 <;> simp [List.getD_eq_getElem?_getD, List.getElem?_set_ne (Ne.symm hj2)]

theorem mem_of_getLast?_eq {α : Type} {l : List α} {a : α} (h : l.getLast? = some a) :
    a ∈ l := by
  induction l with
  | nil => simp at h
  | cons x xs ih =>
    cases xs with
    | nil => simp_all [List.getLast?]
    | cons y ys =>
      rw [List.getLast?_cons_cons] at h
      exact List.mem_cons_of_mem _ (ih h)

theorem stepEntry_skip_none {sg : SgData} {R : Int} {st : SegState} {e : Entry}
    (h : vOf e = "" ∨ e.timestamp = "") (ha : st.active = none) :
    stepEntry sg R st e = st := by
  unfold stepEntry
  rw [if_pos h, ha]

theorem stepEntry_skip_some {sg : SgData} {R : Int} {st : SegState} {e : Entry} {i : Nat}
    (h : vOf e = "" ∨ e.timestamp = "") (ha : st.active = some i) :
    stepEntry sg R st e =
      st.setDisc i
        { st.getDisc i with conversations := (st.getDisc i).conversations ++ [e] } := by
  unfold stepEntry
  rw [if_pos h, ha]

theorem stepEntry_first_known {sg : SgData} {R : Int} {st : SegState} {e : Entry}
    (h : ¬(vOf e = "" ∨ e.timestamp = "")) (ha : st.active = none)
    (hk : vOf e ∈ sgKeys sg) :
    stepEntry sg R st e =
      { st with store := st.store ++ [⟨vOf e, e.timestamp, e.timestamp, [e], [], true⟩],
                active := some st.store.length } := by
  unfold stepEntry
  rw [if_neg h, ha]
  exact if_pos hk

theorem stepEntry_first_unknown {sg : SgData} {R : Int} {st : SegState} {e : Entry}
    (h : ¬(vOf e = "" ∨ e.timestamp = "")) (ha : st.active = none)
    (hk : vOf e ∉ sgKeys sg) :
    stepEntry sg R st e = st := by
  unfold stepEntry
  rw [if_neg h, ha]
  exact if_neg hk

theorem stepEntry_continue {sg : SgData} {R : Int} {st : SegState} {e : Entry} {i : Nat}
    (h : ¬(vOf e = "" ∨ e.timestamp = "")) (ha : st.active = some i)
    (hsame : vOf e = (st.getDisc i).version_id) :
    stepEntry sg R st e =
      st.setDisc i
        { st.getDisc i with conversations := (st.getDisc i).conversations ++ [e],
                            end_time := e.timestamp } := by
  unfold stepEntry
  rw [if_neg h, ha]
  dsimp only
  rw [if_pos hsame]

theorem stepEntry_switch {sg : SgData} {R : Int} {st : SegState} {e : Entry} {i : Nat}
    (h : ¬(vOf e = "" ∨ e.timestamp = "")) (ha : st.active = some i)
    (hdiff : vOf e ≠ (st.getDisc i).version_id) :
    stepEntry sg R st e = startOrReference sg (mergeOrFinalize R st i) e := by
  unfold stepEntry
  rw [if_neg h, ha]
  dsimp only
  rw [if_neg hdiff]

-- ### The known-version invariant

/-- Index `i` names a valid discussion whose version is a known SG version
(and whose `is_sg_version` flag is set). -/
def GoodIdx (sg : SgData) (st : SegState) (i : Nat) : Prop :=
  i < st.store.length ∧ (st.getDisc i).is_sg_version = true ∧
    (st.getDisc i).version_id ∈ sgKeys sg

/-- The loop invariant: every finalized discussion and the active discussion
(when present) has a known SG version. -/
def KnownInv (sg : SgData) (st : SegState) : Prop :=
  (∀ i ∈ st.finalized, GoodIdx sg st i) ∧ ∀ i, st.active = some i → GoodIdx sg st i

theorem GoodIdx_setDisc {sg : SgData} {st : SegState} {i : Nat} {d : Discussion}
    (hv : d.version_id = (st.getDisc i).version_id)
    (hs : d.is_sg_version = (st.getDisc i).is_sg_version)
    {j : Nat} (hj : GoodIdx sg st j) : GoodIdx sg (st.setDisc i d) j := by
  obtain ⟨h1, h2, h3⟩ := hj
  refine ⟨by simpa [length_setDisc] using h1, ?_, ?_⟩ <;>
    rw [getDisc_setDisc] <;> split_ifs with hc
  · obtain ⟨hc1, -⟩ := hc; subst hc1; rw [hs]; exact h2
  · exact h2
  · obtain ⟨hc1, -⟩ := hc; subst hc1; rw [hv]; exact h3
  · exact h3

theorem GoodIdx_mergeIntoLast {sg : SgData} {st : SegState} {cI lI : Nat}
    {j : Nat} (hj : GoodIdx sg st j) : GoodIdx sg (mergeIntoLast st cI lI) j := by
  obtain ⟨h1, h2, h3⟩ := hj
  obtain ⟨f1, f2, f3⟩ := mergeIntoLast_fields st cI lI j
  exact ⟨by rw [mergeIntoLast_length]; exact h1, by rw [f3]; exact h2, by rw [f1]; exact h3⟩

theorem GoodIdx_push {sg : SgData} {st : SegState} {d : Discussion} {j : Nat}
    (hj : GoodIdx sg st j) :
    GoodIdx sg { st with store := st.store ++ [d], active := some st.store.length } j := by
  obtain ⟨h1, h2, h3⟩ := hj
  have hg :
      ({ st with store := st.store ++ [d], active := some st.store.length } : SegState).getDisc j =
        st.getDisc j := by
    unfold SegState.getDisc
    exact List.getD_append _ _ _ _ h1
  refine ⟨?_, by rw [hg]; exact h2, by rw [hg]; exact h3⟩
  simp only [List.length_append]
  omega

theorem GoodIdx_push_new {sg : SgData} {st : SegState} {d : Discussion}
    (hs : d.is_sg_version = true) (hv : d.version_id ∈ sgKeys sg) :
    GoodIdx sg { st with store := st.store ++ [d], active := some st.store.length }
      st.store.length := by
  have hg :
      ({ st with store := st.store ++ [d], active := some st.store.length } : SegState).getDisc
          st.store.length = d := by
    unfold SegState.getDisc
    rw [List.getD_eq_getElem?_getD, List.getElem?_append]
    simp
  refine ⟨by simp, by rw [hg]; exact hs, by rw [hg]; exact hv⟩

theorem GoodIdx_of_eq {sg : SgData} {st st2 : SegState} {j : Nat}
    (hlen : st2.store.length = st.store.length) (hg : st2.getDisc j = st.getDisc j)
    (h : GoodIdx sg st j) : GoodIdx sg st2 j := by
  obtain ⟨h1, h2, h3⟩ := h
  exact ⟨by rw [hlen]; exact h1, by rw [hg]; exact h2, by rw [hg]; exact h3⟩

theorem GoodIdx_refinalize {sg : SgData} {st : SegState} {l : List Nat} {j : Nat}
    (h : GoodIdx sg st j) : GoodIdx sg { st with finalized := l } j := h

theorem GoodIdx_store {sg : SgData} {st st2 : SegState} (hs : st2.store = st.store)
    {j : Nat} (h : GoodIdx sg st j) : GoodIdx sg st2 j := by
  obtain ⟨h1, h2, h3⟩ := h
  have hg : st2.getDisc j = st.getDisc j := by unfold SegState.getDisc; rw [hs]
  exact ⟨by rw [hs]; exact h1, by rw [hg]; exact h2, by rw [hg]; exact h3⟩

theorem KnownInv_mergeOrFinalize {sg : SgData} {R : Int} {st : SegState} {i : Nat}
    (h : KnownInv sg st) (hgi : GoodIdx sg st i) :
    KnownInv sg (mergeOrFinalize R st i) := by
  rcases hl : st.finalized.getLast? with _ | lastIdx
  · rw [mergeOrFinalize_standalone (Or.inl hl)]
    refine ⟨?_, ?_⟩
    · intro k hk
      rcases List.mem_append.mp hk with hk | hk
      · exact GoodIdx_refinalize (h.1 k hk)
      · have : k = i := by simpa using hk
        subst this; exact GoodIdx_refinalize hgi
    · intro k hk
      have : st.active = some k := hk
      exact GoodIdx_refinalize (h.2 k this)
  · by_cases hd : durOf st i < R
    · rw [mergeOrFinalize_merge hl hd]
      refine ⟨?_, ?_⟩
      · intro k hk
        rw [mergeIntoLast_finalized] at hk
        exact GoodIdx_mergeIntoLast (h.1 k hk)
      · intro k hk
        rw [mergeIntoLast_active] at hk
        exact GoodIdx_mergeIntoLast (h.2 k hk)
    · rw [mergeOrFinalize_standalone (Or.inr (by omega))]
      refine ⟨?_, ?_⟩
      · intro k hk
        rcases List.mem_append.mp hk with hk | hk
        · exact GoodIdx_refinalize (h.1 k hk)
        · have : k = i := by simpa using hk
          subst this; exact GoodIdx_refinalize hgi
      · intro k hk
        have : st.active = some k := hk
        exact GoodIdx_refinalize (h.2 k this)

theorem KnownInv_step {sg : SgData} {R : Int} {st : SegState} {e : Entry}
    (h : KnownInv sg st) : KnownInv sg (stepEntry sg R st e) := by
  by_cases hskip : vOf e = "" ∨ e.timestamp = ""
  · rcases ha : st.active with _ | i
    · rw [stepEntry_skip_none hskip ha]; exact h
    · rw [stepEntry_skip_some hskip ha]
      refine ⟨?_, ?_⟩
      · intro k hk
        rw [finalized_setDisc] at hk
        refine GoodIdx_setDisc ?_ ?_ (h.1 k hk) <;> rfl
      · intro k hk
        rw [active_setDisc] at hk
        refine GoodIdx_setDisc ?_ ?_ (h.2 k hk) <;> rfl
  · rcases ha : st.active with _ | i
    · by_cases hk : vOf e ∈ sgKeys sg
      · rw [stepEntry_first_known hskip ha hk]
        refine ⟨?_, ?_⟩
        · intro k hkm
          exact GoodIdx_push (h.1 k hkm)
        · intro k hkm
          have : k = st.store.length := by simpa using hkm.symm
          subst this
          exact GoodIdx_push_new rfl hk
      · rw [stepEntry_first_unknown hskip ha hk]; exact h
    · have hgi : GoodIdx sg st i := h.2 i ha
      by_cases hsame : vOf e = (st.getDisc i).version_id
      · rw [stepEntry_continue hskip ha hsame]
        refine ⟨?_, ?_⟩
        · intro k hkm
          rw [finalized_setDisc] at hkm
          refine GoodIdx_setDisc ?_ ?_ (h.1 k hkm) <;> rfl
        · intro k hkm
          rw [active_setDisc] at hkm
          refine GoodIdx_setDisc ?_ ?_ (h.2 k hkm) <;> rfl
      · rw [stepEntry_switch hskip ha hsame]
        have h1 : KnownInv sg (mergeOrFinalize R st i) := KnownInv_mergeOrFinalize h hgi
        have hne := mergeOrFinalize_finalized_ne_nil R st i
        by_cases hk : vOf e ∈ sgKeys sg
        · rw [startOrReference_known hk]
          refine ⟨?_, ?_⟩
          · intro k hkm
            exact GoodIdx_push (h1.1 k hkm)
          · intro k hkm
            have : k = (mergeOrFinalize R st i).store.length := by simpa using hkm.symm
            subst this
            exact GoodIdx_push_new rfl hk
        · rcases hl1 : (mergeOrFinalize R st i).finalized.getLast? with _ | j
          · exact absurd (List.getLast?_eq_none_iff.mp hl1) hne
          · have hj : GoodIdx sg (mergeOrFinalize R st i) j :=
              h1.1 j (mem_of_getLast?_eq hl1)
            obtain ⟨hjl, hjs, hjv⟩ := hj
            obtain ⟨a1, a2, a3, f1, f2, f3, f4, f5, f6, f7⟩ :=
              startOrReference_unknown hk hl1 hjl
            refine ⟨?_, ?_⟩
            · intro k hkm
              rw [a2] at hkm
              by_cases hkj : k = j
              · subst hkj
                exact ⟨by rw [a3]; exact hjl, by rw [f3]; exact hjs, by rw [f1]; exact hjv⟩
              · exact GoodIdx_of_eq a3 (f7 k hkj) (h1.1 k hkm)
            · intro k hkm
              rw [a1] at hkm
              have : k = j := by simpa using hkm.symm
              subst this
              exact ⟨by rw [a3]; exact hjl, by rw [f3]; exact hjs, by rw [f1]; exact hjv⟩

theorem KnownInv_init (sg : SgData) : KnownInv sg initSeg := by
  constructor
  · intro i hi; simp [initSeg] at hi
  · intro i hi; simp [initSeg] at hi

theorem KnownInv_runSeg (sg : SgData) (R : Int) (events : List Entry) :
    KnownInv sg (runSeg sg R events) := by
  unfold runSeg
  have : ∀ (l : List Entry) (st : SegState), KnownInv sg st →
      KnownInv sg (l.foldl (stepEntry sg R) st) := by
    intro l
    induction l with
    | nil => intro st h; exact h
    | cons x xs ih =>
      intro st h
      rw [List.foldl_cons]
      exact ih _ (KnownInv_step h)
  exact this events initSeg (KnownInv_init sg)

theorem KnownInv_finalize_final {sg : SgData} {R : Int} {st : SegState}
    (h : KnownInv sg st) : ∀ i ∈ (finalize_final R st).finalized,
      GoodIdx sg (finalize_final R st) i := by
  unfold finalize_final
  rcases ha : st.active with _ | i
  · exact h.1
  · have hgi : GoodIdx sg st i := h.2 i ha
    dsimp only
    rcases hl : st.finalized.getLast? with _ | lastIdx
    · intro k hk
      rcases List.mem_append.mp hk with hk | hk
      · exact GoodIdx_store rfl (h.1 k hk)
      · have : k = i := by simpa using hk
        subst this; exact GoodIdx_store rfl hgi
    · split_ifs with hc
      · intro k hk
        rw [mergeIntoLast_finalized] at hk
        exact GoodIdx_mergeIntoLast (h.1 k hk)
      · intro k hk
        rcases List.mem_append.mp hk with hk | hk
        · exact GoodIdx_store rfl (h.1 k hk)
        · have : k = i := by simpa using hk
          subst this; exact GoodIdx_store rfl hgi

-- ### Claim C9

/-- Claim C9: every discussion in the finalized list returned by
`analyze_version_discussions` has a `version_id` present in the known-version
table.  The branch that would create an active discussion for an unknown
version when no discussion has been finalized is unreachable (at every switch
the preceding merge-or-finalize step leaves `discussions` nonempty), and every
other discussion-creation site requires a known version, so the `KnownInv`
invariant holds throughout the loop. -/
theorem c9_finalized_versions_known (events : List Entry) (sg : SgData) (R : Int) :
    ∀ d ∈ analyze_version_discussions events sg R, d.version_id ∈ sgKeys sg := by
  intro d hd
  unfold analyze_version_discussions at hd
  cases events with
  | nil => simp at hd
  | cons x xs =>
    dsimp only at hd
    rw [List.mem_map] at hd
    obtain ⟨i, hi, hdi⟩ := hd
    have hInv := KnownInv_runSeg sg R (x :: xs)
    have hg := KnownInv_finalize_final hInv i hi
    rw [← hdi]
    exact hg.2.2

/-- Witness for C9 at a concrete run. -/
theorem c9_witness :
    ((analyze_version_discussions [⟨"00:00:10", "Alice", "hi", some "101"⟩]
        [("101", "ok")] 30).getD 0 default).version_id ∈ sgKeys [("101", "ok")] :=
  c9_finalized_versions_known [⟨"00:00:10", "Alice", "hi", some "101"⟩] [("101", "ok")] 30 _
    (by decide)

-- ### Claim C4

/-- Spec-side restatement of the end-of-stream rule (spec 4.3 rule 4): at end
of stream, finalize whatever discussion is active by applying the same
short-duration merge test as the mid-stream switch rule (rule 3b) against the
last finalized discussion if one exists. -/
def finalizeEndSpec (R : Int) (st : SegState) : SegState :=
  match st.active with
  | none => st
  | some i => mergeOrFinalize R st i

/-- Claim C4: at end of stream the still-active discussion (if any) is
finalized by exactly the mid-stream merge-or-finalize test: although the
source's final block carries an extra `is_sg_version` conjunct, that flag is
true for every reachable active discussion, so on every run of the loop the
end-of-stream handling coincides with the mid-stream rule. -/
theorem c4_end_of_stream_same_merge_test (sg : SgData) (R : Int) (events : List Entry) :
    finalize_final R (runSeg sg R events) = finalizeEndSpec R (runSeg sg R events) := by
  have hInv := KnownInv_runSeg sg R events
  set st := runSeg sg R events with hst
  unfold finalize_final finalizeEndSpec
  rcases ha : st.active with _ | i
  · rfl
  · have hgi := hInv.2 i ha
    dsimp only
    unfold mergeOrFinalize
    rcases hl : st.finalized.getLast? with _ | lastIdx
    · dsimp only; rw [ha]
    · dsimp only
      by_cases hd :
          calculate_time_difference (st.getDisc i).start_time (st.getDisc i).end_time < R
      · rw [if_pos ⟨hd, hgi.2.1⟩, if_pos hd]
      · rw [if_neg (fun hc => hd hc.1), if_neg hd, ha]

theorem mergeOrFinalize_length (R : Int) (st : SegState) (i : Nat) :
    (mergeOrFinalize R st i).store.length = st.store.length := by
  unfold mergeOrFinalize
  cases hlast : st.finalized.getLast? with
  | none => rfl
  | some lastIdx =>
    dsimp only
    split_ifs
    · exact mergeIntoLast_length st i lastIdx
    · rfl

theorem mergeOrFinalize_finalized_cases (R : Int) (st : SegState) (i : Nat) :
    (mergeOrFinalize R st i).finalized = st.finalized ∨
      (mergeOrFinalize R st i).finalized = st.finalized ++ [i] := by
  unfold mergeOrFinalize
  cases hlast : st.finalized.getLast? with
  | none => exact Or.inr rfl
  | some lastIdx =>
    dsimp only
    split_ifs
    · exact Or.inl (mergeIntoLast_finalized st i lastIdx)
    · exact Or.inr rfl

-- ### Claim C2

/-- Claim C2: at a switch while a discussion is active and with at least one
finalized discussion, the active discussion is merged into the last finalized
discussion as a brief reference exactly when
`diffSeconds(start_time, end_time) < R`; when the duration is at least `R`
(in particular exactly `R`) it is finalized as its own standalone discussion
(appended to the output list). -/
theorem c2_switch_threshold_boundary (sg : SgData) (R : Int) (st : SegState) (e : Entry)
    (i lastIdx : Nat)
    (ha : st.active = some i) (hi : i < st.store.length)
    (hv : ¬(vOf e = "" ∨ e.timestamp = ""))
    (hdiff : vOf e ≠ (st.getDisc i).version_id)
    (hlast : st.finalized.getLast? = some lastIdx)
    (hli : lastIdx < st.store.length) :
    (durOf st i < R →
      (stepEntry sg R st e).finalized = st.finalized ∧
      (∃ tail, ((stepEntry sg R st e).getDisc lastIdx).conversations =
        ((st.getDisc lastIdx).conversations ++ (st.getDisc i).conversations) ++ tail) ∧
      ((st.getDisc i).version_id ∉ (st.getDisc lastIdx).reference_versions.map Prod.fst ∧
          (st.getDisc i).version_id ≠ (st.getDisc lastIdx).version_id →
        ((st.getDisc i).version_id, (st.getDisc i).start_time) ∈
          ((stepEntry sg R st e).getDisc lastIdx).reference_versions)) ∧
    (R ≤ durOf st i →
      (stepEntry sg R st e).finalized = st.finalized ++ [i]) := by
  rw [stepEntry_switch hv ha hdiff]
  constructor
  · intro hd
    have hm : mergeOrFinalize R st i = mergeIntoLast st i lastIdx :=
      mergeOrFinalize_merge hlast hd
    rw [hm]
    set st1 := mergeIntoLast st i lastIdx with hst1
    have hfin1 : st1.finalized = st.finalized := mergeIntoLast_finalized st i lastIdx
    have hlen1 : st1.store.length = st.store.length := mergeIntoLast_length st i lastIdx
    have hconv1 : (st1.getDisc lastIdx).conversations =
        (st.getDisc lastIdx).conversations ++ (st.getDisc i).conversations :=
      mergeIntoLast_convs_last st i lastIdx hli
    have hrefs1 := mergeIntoLast_refs_last st i lastIdx hli
    by_cases hk : vOf e ∈ sgKeys sg
    · rw [startOrReference_known hk]
      have hg : ({ st1 with store := st1.store ++ [⟨vOf e, e.timestamp, e.timestamp, [e], [], true⟩], active := some st1.store.length } : SegState).getDisc lastIdx = st1.getDisc lastIdx := by
        unfold SegState.getDisc
        exact List.getD_append _ _ _ _ (by omega)
      refine ⟨hfin1, ⟨[], by rw [hg, hconv1, List.append_nil]⟩, ?_⟩
      intro hguard
      rw [hg, hrefs1, if_pos hguard]
      simp
    · have hl1 : st1.finalized.getLast? = some lastIdx := by rw [hfin1]; exact hlast
      obtain ⟨a1, a2, a3, f1, f2, f3, f4, f5, f6, f7⟩ :=
        startOrReference_unknown hk hl1 (by omega)
      refine ⟨by rw [a2, hfin1], ⟨[e], by rw [f4, hconv1]⟩, ?_⟩
      intro hguard
      rw [f6]
      have hmem : ((st.getDisc i).version_id, (st.getDisc i).start_time) ∈
          (st1.getDisc lastIdx).reference_versions := by
        show ((st.getDisc i).version_id, (st.getDisc i).start_time) ∈
          ((mergeIntoLast st i lastIdx).getDisc lastIdx).reference_versions
        rw [hrefs1, if_pos hguard]
        simp
      split_ifs with hg2
      · exact List.mem_append_left _ hmem
      · exact hmem
  · intro hd
    have hm : mergeOrFinalize R st i = { st with finalized := st.finalized ++ [i] } :=
      mergeOrFinalize_standalone (Or.inr hd)
    rw [hm]
    by_cases hk : vOf e ∈ sgKeys sg
    · rw [startOrReference_known hk]
    · have hl1 : ({ st with finalized := st.finalized ++ [i] } : SegState).finalized.getLast? =
          some i := by
        dsimp only
        exact List.getLast?_concat _
      obtain ⟨a1, a2, a3, f1, f2, f3, f4, f5, f6, f7⟩ :=
        startOrReference_unknown hk hl1 (by dsimp only; omega)
      rw [a2]

/-- Witness for C2 at the threshold boundary: an active discussion of exactly
30 seconds (the threshold) is finalized standalone, not merged. -/
theorem c2_witness :
    (stepEntry [("100", "x"), ("101", "y"), ("102", "z")] 30
        ⟨[⟨"100", "00:00:00", "00:00:10", [], [], true⟩,
          ⟨"101", "00:00:20", "00:00:50", [], [], true⟩], [0], some 1⟩
        ⟨"00:00:55", "S", "t", some "102"⟩).finalized = [0] ++ [1] :=
  (c2_switch_threshold_boundary [("100", "x"), ("101", "y"), ("102", "z")] 30
      ⟨[⟨"100", "00:00:00", "00:00:10", [], [], true⟩,
        ⟨"101", "00:00:20", "00:00:50", [], [], true⟩], [0], some 1⟩
      ⟨"00:00:55", "S", "t", some "102"⟩ 1 0 (by decide) (by decide) (by decide)
      (by decide) (by decide) (by decide)).2 (by decide)

-- ### Claim C3

/-- Counterexample to C3: after the events for known version `101`
(discussed for 40 seconds, so not merged) a switch event carrying unknown
version `999` does not start a provisional active discussion of its own: the
whole store still holds the single discussion for `101`, and the active
discussion is that same discussion (index 0), not a new one seeded with the
switching event. -/
theorem c3_counterexample :
    ((runSeg [("101", "n1")] 30
        [⟨"00:00:00", "A", "a", some "101"⟩, ⟨"00:00:40", "A", "b", some "101"⟩,
         ⟨"00:00:45", "B", "c", some "999"⟩]).store.map (fun d => d.version_id) =
      ["101"]) ∧
    (runSeg [("101", "n1")] 30
        [⟨"00:00:00", "A", "a", some "101"⟩, ⟨"00:00:40", "A", "b", some "101"⟩,
         ⟨"00:00:45", "B", "c", some "999"⟩]).active = some 0 ∧
    "101" ≠ "999" := by decide

/-- Claim C3 (amended): on a switch whose active discussion is not merged,
the active discussion is finalized; a new active discussion seeded with the
switching event is started only when the event's version id is a known
version.  When the version id is unknown, no new discussion is created:
the event is folded into the just-finalized discussion, which becomes the
active discussion again. -/
theorem c3_switch_start_or_reference (sg : SgData) (R : Int) (st : SegState) (e : Entry)
    (i : Nat)
    (ha : st.active = some i) (hi : i < st.store.length)
    (hv : ¬(vOf e = "" ∨ e.timestamp = ""))
    (hdiff : vOf e ≠ (st.getDisc i).version_id)
    (hstand : st.finalized = [] ∨ R ≤ durOf st i) :
    (stepEntry sg R st e).finalized = st.finalized ++ [i] ∧
    (vOf e ∈ sgKeys sg →
      (stepEntry sg R st e).store =
        st.store ++ [⟨vOf e, e.timestamp, e.timestamp, [e], [], true⟩] ∧
      (stepEntry sg R st e).active = some st.store.length) ∧
    (vOf e ∉ sgKeys sg →
      (stepEntry sg R st e).store.length = st.store.length ∧
      (stepEntry sg R st e).active = some i ∧
      e ∈ ((stepEntry sg R st e).getDisc i).conversations) := by
  rw [stepEntry_switch hv ha hdiff]
  have hm : mergeOrFinalize R st i = { st with finalized := st.finalized ++ [i] } := by
    rcases hstand with hs | hs
    · exact mergeOrFinalize_standalone (Or.inl (List.getLast?_eq_none_iff.mpr hs))
    · exact mergeOrFinalize_standalone (Or.inr hs)
  rw [hm]
  by_cases hk : vOf e ∈ sgKeys sg
  · rw [startOrReference_known hk]
    exact ⟨rfl, fun _ => ⟨rfl, rfl⟩, fun hn => absurd hk hn⟩
  · have hl1 : ({ st with finalized := st.finalized ++ [i] } : SegState).finalized.getLast? =
        some i := List.getLast?_concat _
    obtain ⟨a1, a2, a3, f1, f2, f3, f4, f5, f6, f7⟩ :=
      startOrReference_unknown hk hl1 (by dsimp only; omega)
    refine ⟨a2, fun hkk => absurd hkk hk, fun _ => ⟨a3, a1, ?_⟩⟩
    rw [f4]
    simp

/-- Witness for C3 with a known switching version. -/
theorem c3_witness :
    (stepEntry [("100", "x"), ("102", "z")] 30
        ⟨[⟨"100", "00:00:00", "00:00:40", [], [], true⟩], [], some 0⟩
        ⟨"00:00:45", "S", "t", some "102"⟩).finalized = [] ++ [0] :=
  (c3_switch_start_or_reference [("100", "x"), ("102", "z")] 30
      ⟨[⟨"100", "00:00:00", "00:00:40", [], [], true⟩], [], some 0⟩
      ⟨"00:00:45", "S", "t", some "102"⟩ 0 (by decide) (by decide) (by decide)
      (by decide) (Or.inl (by decide))).1

-- ### Claim C10

/-- Claim C10: when a switch event carries an unknown version id and at least
one discussion has been finalized, the event starts no discussion of its own
(the store does not grow).  After the merge-or-finalize step, the event is
appended to the conversations of the last finalized discussion `j`, a
reference is recorded there unless already present or equal to that
discussion's own id, its `end_time` becomes the event's timestamp, and `j`
becomes the active discussion while also sitting in the finalized list, so
subsequent events extend an already-finalized discussion. -/
theorem c10_unknown_switch_extends_last (sg : SgData) (R : Int) (st : SegState) (e : Entry)
    (i : Nat)
    (ha : st.active = some i) (hi : i < st.store.length)
    (hv : ¬(vOf e = "" ∨ e.timestamp = ""))
    (hdiff : vOf e ≠ (st.getDisc i).version_id)
    (hunk : vOf e ∉ sgKeys sg)
    (hfin : st.finalized ≠ [])
    (hvalid : ∀ k ∈ st.finalized, k < st.store.length) :
    ∃ j, (mergeOrFinalize R st i).finalized.getLast? = some j ∧
      (stepEntry sg R st e).active = some j ∧
      j ∈ (stepEntry sg R st e).finalized ∧
      (stepEntry sg R st e).store.length = st.store.length ∧
      ((stepEntry sg R st e).getDisc j).conversations =
        ((mergeOrFinalize R st i).getDisc j).conversations ++ [e] ∧
      ((stepEntry sg R st e).getDisc j).end_time = e.timestamp ∧
      ((stepEntry sg R st e).getDisc j).reference_versions =
        (if vOf e ∉ ((mergeOrFinalize R st i).getDisc j).reference_versions.map Prod.fst ∧
            vOf e ≠ ((mergeOrFinalize R st i).getDisc j).version_id then
          ((mergeOrFinalize R st i).getDisc j).reference_versions ++ [(vOf e, e.timestamp)]
        else ((mergeOrFinalize R st i).getDisc j).reference_versions) := by
  rw [stepEntry_switch hv ha hdiff]
  have hne := mergeOrFinalize_finalized_ne_nil R st i
  rcases hl1 : (mergeOrFinalize R st i).finalized.getLast? with _ | j
  · exact absurd (List.getLast?_eq_none_iff.mp hl1) hne
  · have hjmem : j ∈ (mergeOrFinalize R st i).finalized := mem_of_getLast?_eq hl1
    have hjlen : j < (mergeOrFinalize R st i).store.length := by
      rw [mergeOrFinalize_length]
      rcases mergeOrFinalize_finalized_cases R st i with hc | hc
      · exact hvalid j (hc ▸ hjmem)
      · rw [hc] at hjmem
        rcases List.mem_append.mp hjmem with hm | hm
        · exact hvalid j hm
        · have : j = i := by simpa using hm
          subst this; exact hi
    obtain ⟨a1, a2, a3, f1, f2, f3, f4, f5, f6, f7⟩ :=
      startOrReference_unknown hunk hl1 hjlen
    refine ⟨j, rfl, a1, ?_, ?_, f4, f5, f6⟩
    · rw [a2]; exact hjmem
    · rw [a3]; exact mergeOrFinalize_length R st i

/-- Witness for C10: unknown version `999` switches in after a finalized and
an active discussion. -/
theorem c10_witness :
    ∃ j, (mergeOrFinalize 30
        ⟨[⟨"100", "00:00:00", "00:00:40", [], [], true⟩,
          ⟨"101", "00:00:50", "00:01:40", [], [], true⟩], [0], some 1⟩
        1).finalized.getLast? = some j ∧
      (stepEntry [("100", "x"), ("101", "y")] 30
        ⟨[⟨"100", "00:00:00", "00:00:40", [], [], true⟩,
          ⟨"101", "00:00:50", "00:01:40", [], [], true⟩], [0], some 1⟩
        ⟨"00:01:45", "S", "t", some "999"⟩).active = some j ∧
      j ∈ (stepEntry [("100", "x"), ("101", "y")] 30
        ⟨[⟨"100", "00:00:00", "00:00:40", [], [], true⟩,
          ⟨"101", "00:00:50", "00:01:40", [], [], true⟩], [0], some 1⟩
        ⟨"00:01:45", "S", "t", some "999"⟩).finalized ∧
      (stepEntry [("100", "x"), ("101", "y")] 30
        ⟨[⟨"100", "00:00:00", "00:00:40", [], [], true⟩,
          ⟨"101", "00:00:50", "00:01:40", [], [], true⟩], [0], some 1⟩
        ⟨"00:01:45", "S", "t", some "999"⟩).store.length = 2 ∧
      ((stepEntry [("100", "x"), ("101", "y")] 30
        ⟨[⟨"100", "00:00:00", "00:00:40", [], [], true⟩,
          ⟨"101", "00:00:50", "00:01:40", [], [], true⟩], [0], some 1⟩
        ⟨"00:01:45", "S", "t", some "999"⟩).getDisc j).conversations =
        ((mergeOrFinalize 30
          ⟨[⟨"100", "00:00:00", "00:00:40", [], [], true⟩,
            ⟨"101", "00:00:50", "00:01:40", [], [], true⟩], [0], some 1⟩
          1).getDisc j).conversations ++ [⟨"00:01:45", "S", "t", some "999"⟩] ∧
      ((stepEntry [("100", "x"), ("101", "y")] 30
        ⟨[⟨"100", "00:00:00", "00:00:40", [], [], true⟩,
          ⟨"101", "00:00:50", "00:01:40", [], [], true⟩], [0], some 1⟩
        ⟨"00:01:45", "S", "t", some "999"⟩).getDisc j).end_time = "00:01:45" ∧
      ((stepEntry [("100", "x"), ("101", "y")] 30
        ⟨[⟨"100", "00:00:00", "00:00:40", [], [], true⟩,
          ⟨"101", "00:00:50", "00:01:40", [], [], true⟩], [0], some 1⟩
        ⟨"00:01:45", "S", "t", some "999"⟩).getDisc j).reference_versions =
        (if vOf ⟨"00:01:45", "S", "t", some "999"⟩ ∉ ((mergeOrFinalize 30
            ⟨[⟨"100", "00:00:00", "00:00:40", [], [], true⟩,
              ⟨"101", "00:00:50", "00:01:40", [], [], true⟩], [0], some 1⟩
            1).getDisc j).reference_versions.map Prod.fst ∧
            vOf ⟨"00:01:45", "S", "t", some "999"⟩ ≠ ((mergeOrFinalize 30
            ⟨[⟨"100", "00:00:00", "00:00:40", [], [], true⟩,
              ⟨"101", "00:00:50", "00:01:40", [], [], true⟩], [0], some 1⟩
            1).getDisc j).version_id then
          ((mergeOrFinalize 30
            ⟨[⟨"100", "00:00:00", "00:00:40", [], [], true⟩,
              ⟨"101", "00:00:50", "00:01:40", [], [], true⟩], [0], some 1⟩
            1).getDisc j).reference_versions ++
              [(vOf ⟨"00:01:45", "S", "t", some "999"⟩, "00:01:45")]
        else ((mergeOrFinalize 30
            ⟨[⟨"100", "00:00:00", "00:00:40", [], [], true⟩,
              ⟨"101", "00:00:50", "00:01:40", [], [], true⟩], [0], some 1⟩
            1).getDisc j).reference_versions) :=
  c10_unknown_switch_extends_last [("100", "x"), ("101", "y")] 30
    ⟨[⟨"100", "00:00:00", "00:00:40", [], [], true⟩,
      ⟨"101", "00:00:50", "00:01:40", [], [], true⟩], [0], some 1⟩
    ⟨"00:01:45", "S", "t", some "999"⟩ 1 (by decide) (by decide) (by decide)
    (by decide) (by decide) (by decide) (by decide)

-- ### Sorting lemmas

theorem insertStable_perm {α : Type} (le : α → α → Bool) (x : α) (l : List α) :
    (insertStable le x l).Perm (x :: l) := by
  induction l with
  | nil => exact List.Perm.refl _
  | cons y ys ih =>
    unfold insertStable
    split_ifs
    · exact List.Perm.refl _
    · exact ((ih.cons y).trans (List.Perm.swap x y ys))

theorem sortStable_perm {α : Type} (le : α → α → Bool) (l : List α) :
    (sortStable le l).Perm l := by
  induction l with
  | nil => exact List.Perm.refl _
  | cons x xs ih =>
    unfold sortStable
    dsimp only [List.foldr_cons]
    exact (insertStable_perm le x _).trans (ih.cons x)

theorem mem_sortStable {α : Type} {le : α → α → Bool} {l : List α} {a : α} :
    a ∈ sortStable le l ↔ a ∈ l :=
  (sortStable_perm le l).mem_iff

-- ### Claim C1

/-- Counterexample to C1: known version `101` is the subject of two separate
standalone discussions (each 40 seconds, above the 30-second threshold, with a
40-second discussion of known version `102` in between), so the output
contains two rows with version id `101` - the claimed one-row-per-version
uniqueness fails. -/
theorem c1_counterexample :
    ((combine_output_rows
        [⟨"00:00:00", "A", "a", some "101"⟩, ⟨"00:00:40", "A", "b", some "101"⟩,
         ⟨"00:00:50", "A", "c", some "102"⟩, ⟨"00:01:30", "A", "d", some "102"⟩,
         ⟨"00:01:40", "A", "e", some "101"⟩, ⟨"00:02:20", "A", "f", some "101"⟩]
        [("101", "n1"), ("102", "n2")] 30).map (fun r => r.version_id) =
      ["101", "102", "101"]) ∧
    ¬ ((combine_output_rows
        [⟨"00:00:00", "A", "a", some "101"⟩, ⟨"00:00:40", "A", "b", some "101"⟩,
         ⟨"00:00:50", "A", "c", some "102"⟩, ⟨"00:01:30", "A", "d", some "102"⟩,
         ⟨"00:01:40", "A", "e", some "101"⟩, ⟨"00:02:20", "A", "f", some "101"⟩]
        [("101", "n1"), ("102", "n2")] 30).map (fun r => r.version_id)).Nodup := by
  decide

theorem fold_rows_spec (sg : SgData)
    (F : List OutputRow × List String → Discussion → List OutputRow × List String)
    (hF : ∀ acc d, F acc d = acc ∨
      ∃ r : OutputRow, F acc d = (acc.1 ++ [r], acc.2 ++ [d.version_id]) ∧
        r.version_id = d.version_id ∧ d.version_id ∈ sgKeys sg) :
    ∀ (ds : List Discussion) (acc : List OutputRow × List String),
      (∀ r ∈ acc.1, r.version_id ∈ sgKeys sg) →
      (∀ v, v ∈ acc.2 ↔ v ∈ acc.1.map (fun r => r.version_id)) →
      (∀ r ∈ (ds.foldl F acc).1, r.version_id ∈ sgKeys sg) ∧
      (∀ v, v ∈ (ds.foldl F acc).2 ↔ v ∈ (ds.foldl F acc).1.map (fun r => r.version_id)) := by
  intro ds
  induction ds with
  | nil => intro acc h1 h2; exact ⟨h1, h2⟩
  | cons d rest ih =>
    intro acc h1 h2
    rw [List.foldl_cons]
    rcases hF acc d with hc | ⟨r, hc, hr1, hr2⟩
    · rw [hc]; exact ih acc h1 h2
    · rw [hc]
      refine ih _ ?_ ?_
      · intro r2 hr2m
        rcases List.mem_append.mp hr2m with hm | hm
        · exact h1 r2 hm
        · have : r2 = r := by simpa using hm
          subst this; rw [hr1]; exact hr2
      · intro v
        constructor
        · intro hv
          rcases List.mem_append.mp hv with hm | hm
          · have := (h2 v).mp hm
            rw [List.map_append]
            exact List.mem_append_left _ this
          · have : v = d.version_id := by simpa using hm
            subst this
            rw [List.map_append]
            refine List.mem_append_right _ ?_
            simp [hr1]
        · intro hv
          rw [List.map_append] at hv
          rcases List.mem_append.mp hv with hm | hm
          · exact List.mem_append_left _ ((h2 v).mpr hm)
          · have : v = r.version_id := by simpa using hm
            subst this
            rw [hr1]
            simp

theorem process_transcript_versions_spec (events : List Entry) (sg : SgData) (R : Int) :
    (∀ r ∈ (process_transcript_versions events sg R).1, r.version_id ∈ sgKeys sg) ∧
    (∀ v, v ∈ (process_transcript_versions events sg R).2 ↔
      v ∈ (process_transcript_versions events sg R).1.map (fun r => r.version_id)) := by
  unfold process_transcript_versions
  refine fold_rows_spec sg _ ?_ _ ([], []) (by simp) (by simp)
  intro acc d
  by_cases hm : d.version_id ∈ sgKeys sg
  · exact Or.inr ⟨_, if_pos hm, rfl, hm⟩
  · exact Or.inl (if_neg hm)

/-- Claim C1 (amended): for every known-version table K and every transcript,
each version id of K appears in at least one output row and no output row
carries a version id outside K.  (The claimed uniqueness - no version id in
two rows - fails: a known version whose discussion is interrupted by another
standalone discussion produces one row per standalone span, as the
counterexample shows.) -/
theorem c1_output_version_ids_cover_sg (events : List Entry) (sg : SgData) (R : Int) :
    (∀ k ∈ sgKeys sg, k ∈ (combine_output_rows events sg R).map (fun r => r.version_id)) ∧
    (∀ r ∈ combine_output_rows events sg R, r.version_id ∈ sgKeys sg) := by
  obtain ⟨hsound, hproc⟩ := process_transcript_versions_spec events sg R
  constructor
  · intro k hk
    unfold combine_output_rows
    rw [List.map_append]
    by_cases hp : k ∈ (process_transcript_versions events sg R).2
    · exact List.mem_append_left _ ((hproc k).mp hp)
    · refine List.mem_append_right _ ?_
      rw [List.map_map, List.mem_map]
      refine ⟨k, ?_, rfl⟩
      rw [mem_sortStable, List.mem_filter]
      exact ⟨hk, by simpa using hp⟩
  · intro r hr
    unfold combine_output_rows at hr
    rcases List.mem_append.mp hr with hm | hm
    · exact hsound r hm
    · rw [List.mem_map] at hm
      obtain ⟨v, hv, hveq⟩ := hm
      rw [mem_sortStable, List.mem_filter] at hv
      rw [← hveq]
      exact hv.1

/-- Witness for C1 (amended), coverage part at a concrete input. -/
theorem c1_witness :
    "305" ∈ (combine_output_rows [⟨"00:00:05", "A", "hello", some "101"⟩]
        [("101", "n1"), ("305", "n2")] 30).map (fun r => r.version_id) :=
  (c1_output_version_ids_cover_sg [⟨"00:00:05", "A", "hello", some "101"⟩]
      [("101", "n1"), ("305", "n2")] 30).1 "305" (by decide)

-- ### Reference-list invariant (for C5)

/-- The per-discussion reference-list invariant: no self-reference and at
most one entry per referenced version id. -/
def RefGood (d : Discussion) : Prop :=
  d.version_id ∉ d.reference_versions.map Prod.fst ∧
    (d.reference_versions.map Prod.fst).Nodup

/-- Every discussion ever stored satisfies `RefGood`. -/
def RefInv (st : SegState) : Prop := ∀ d ∈ st.store, RefGood d

theorem RefGood_default : RefGood default := by
  constructor <;> simp [default]

theorem RefGood_getDisc {st : SegState} (h : RefInv st) (i : Nat) :
    RefGood (st.getDisc i) := by
  by_cases hi : i < st.store.length
  · have hval : st.getDisc i = st.store[i] := by
      unfold SegState.getDisc
      exact List.getD_eq_getElem _ _ hi
    rw [hval]
    exact h _ (List.getElem_mem hi)
  · unfold SegState.getDisc
    rw [List.getD_eq_getElem?_getD, List.getElem?_eq_none (Nat.le_of_not_lt hi)]
    exact RefGood_default

theorem RefInv_setDisc {st : SegState} {i : Nat} {d : Discussion}
    (h : RefInv st) (hd : RefGood d) : RefInv (st.setDisc i d) := by
  intro d2 hd2
  unfold SegState.setDisc at hd2
  rcases List.mem_or_eq_of_mem_set hd2 with hm | hm
  · exact h d2 hm
  · rw [hm]; exact hd

theorem RefInv_push {st : SegState} {d : Discussion} {a : Option Nat}
    (h : RefInv st) (hd : RefGood d) :
    RefInv { st with store := st.store ++ [d], active := a } := by
  intro d2 hd2
  rcases List.mem_append.mp hd2 with hm | hm
  · exact h d2 hm
  · have : d2 = d := by simpa using hm
    rw [this]; exact hd

/-- Appending a fresh guarded reference pair keeps `RefGood`. -/
theorem RefGood_append_ref {d : Discussion} {v t : String} (h : RefGood d)
    (hg : v ∉ d.reference_versions.map Prod.fst ∧ v ≠ d.version_id) :
    RefGood { d with reference_versions := d.reference_versions ++ [(v, t)] } := by
  obtain ⟨h1, h2⟩ := h
  constructor
  · simp only [List.map_append, List.map_cons, List.map_nil]
    intro hmem
    rcases List.mem_append.mp hmem with hm | hm
    · exact h1 hm
    · have : d.version_id = v := by simpa using hm
      exact hg.2 this.symm
  · simp only [List.map_append, List.map_cons, List.map_nil]
    rw [List.nodup_append]
    refine ⟨h2, by simp, ?_⟩
    intro a ha hb
    have hav : a = v := by simpa using hb
    subst hav
    exact hg.1 ha

theorem RefGood_same_refs {d d2 : Discussion} (h : RefGood d)
    (hv : d2.version_id = d.version_id)
    (hr : d2.reference_versions = d.reference_versions) : RefGood d2 := by
  unfold RefGood
  rw [hv, hr]
  exact h

theorem RefInv_setDisc_keep {st : SegState} {i : Nat} {d : Discussion}
    (h : RefInv st) (hv : d.version_id = (st.getDisc i).version_id)
    (hr : d.reference_versions = (st.getDisc i).reference_versions) :
    RefInv (st.setDisc i d) :=
  RefInv_setDisc h (RefGood_same_refs (RefGood_getDisc h i) hv hr)

theorem RefInv_mergeIntoLast {st : SegState} (h : RefInv st) (cI lI : Nat) :
    RefInv (mergeIntoLast st cI lI) := by
  unfold mergeIntoLast
  dsimp only
  split_ifs with h1 h2 h3
  · exact RefInv_setDisc_keep (RefInv_setDisc_keep
      (RefInv_setDisc h (RefGood_append_ref (RefGood_getDisc h lI) h1)) rfl rfl) rfl rfl
  · exact RefInv_setDisc_keep
      (RefInv_setDisc h (RefGood_append_ref (RefGood_getDisc h lI) h1)) rfl rfl
  · exact RefInv_setDisc_keep (RefInv_setDisc_keep h rfl rfl) rfl rfl
  · exact RefInv_setDisc_keep h rfl rfl

theorem RefGood_seed (v t : String) (e : Entry) (b : Bool) :
    RefGood ⟨v, t, t, [e], [], b⟩ := by
  constructor <;> simp

theorem RefInv_startOrReference {sg : SgData} {st : SegState} {e : Entry}
    (h : RefInv st) : RefInv (startOrReference sg st e) := by
  unfold startOrReference
  dsimp only
  split_ifs with h1
  · exact RefInv_push h (RefGood_seed _ _ _ _)
  · cases hlast : st.finalized.getLast? with
    | some j =>
      dsimp only
      split_ifs with h2
      · exact RefInv_setDisc_keep
          (RefInv_setDisc h (RefGood_append_ref (RefGood_getDisc h j) h2)) rfl rfl
      · exact RefInv_setDisc_keep h rfl rfl
    | none => exact RefInv_push h (RefGood_seed _ _ _ _)

theorem RefInv_mergeOrFinalize {R : Int} {st : SegState} {i : Nat}
    (h : RefInv st) : RefInv (mergeOrFinalize R st i) := by
  unfold mergeOrFinalize
  cases hlast : st.finalized.getLast? with
  | none => exact h
  | some lastIdx =>
    dsimp only
    split_ifs
    · exact RefInv_mergeIntoLast h i lastIdx
    · exact h

theorem RefInv_step {sg : SgData} {R : Int} {st : SegState} {e : Entry}
    (h : RefInv st) : RefInv (stepEntry sg R st e) := by
  by_cases h1 : vOf e = "" ∨ e.timestamp = ""
  · rcases ha : st.active with _ | i
    · rw [stepEntry_skip_none h1 ha]; exact h
    · rw [stepEntry_skip_some h1 ha]; exact RefInv_setDisc_keep h rfl rfl
  · rcases ha : st.active with _ | i
    · by_cases h2 : vOf e ∈ sgKeys sg
      · rw [stepEntry_first_known h1 ha h2]; exact RefInv_push h (RefGood_seed _ _ _ _)
      · rw [stepEntry_first_unknown h1 ha h2]; exact h
    · by_cases h2 : vOf e = (st.getDisc i).version_id
      · rw [stepEntry_continue h1 ha h2]; exact RefInv_setDisc_keep h rfl rfl
      · rw [stepEntry_switch h1 ha h2]
        exact RefInv_startOrReference (RefInv_mergeOrFinalize h)

theorem RefInv_finalize_final {R : Int} {st : SegState} (h : RefInv st) :
    RefInv (finalize_final R st) := by
  unfold finalize_final
  cases st.active with
  | none => exact h
  | some i =>
    dsimp only
    cases st.finalized.getLast? with
    | none => exact h
    | some lastIdx =>
      dsimp only
      split_ifs
      · exact RefInv_mergeIntoLast h i lastIdx
      · exact h

theorem RefInv_runSeg (sg : SgData) (R : Int) (events : List Entry) :
    RefInv (runSeg sg R events) := by
  unfold runSeg
  have hgen : ∀ (l : List Entry) (st : SegState), RefInv st →
      RefInv (l.foldl (stepEntry sg R) st) := by
    intro l
    induction l with
    | nil => intro st h; exact h
    | cons x xs ih =>
      intro st h
      rw [List.foldl_cons]
      exact ih _ (RefInv_step h)
  exact hgen events initSeg (fun d hd => by simp [initSeg] at hd)

-- ### Reference lists are append-only (for C5)

theorem setDisc_oob {st : SegState} {i : Nat} (h : st.store.length ≤ i) (d : Discussion) :
    st.setDisc i d = st := by
  unfold SegState.setDisc
  rw [List.set_eq_of_length_le h]

theorem getDisc_oob {st : SegState} {idx : Nat} (h : st.store.length ≤ idx) :
    st.getDisc idx = default := by
  unfold SegState.getDisc
  rw [List.getD_eq_getElem?_getD, List.getElem?_eq_none h]
  rfl

/-- Processing never removes or rewrites an existing reference entry of the
discussion stored at `idx`: the old list is an initial segment of the new
one, so the timestamp first recorded for a referenced id is retained. -/
def RefsPrefix (st st2 : SegState) (idx : Nat) : Prop :=
  ∃ tl, (st2.getDisc idx).reference_versions =
    (st.getDisc idx).reference_versions ++ tl

theorem RefsPrefix_refl (st : SegState) (idx : Nat) : RefsPrefix st st idx :=
  ⟨[], by rw [List.append_nil]⟩

theorem RefsPrefix_of_store_eq {st st2 : SegState} (hs : st2.store = st.store) (idx : Nat) :
    RefsPrefix st st2 idx :=
  ⟨[], by unfold SegState.getDisc; rw [hs, List.append_nil]⟩

theorem RefsPrefix_trans {st1 st2 st3 : SegState} {idx : Nat}
    (h1 : RefsPrefix st1 st2 idx) (h2 : RefsPrefix st2 st3 idx) :
    RefsPrefix st1 st3 idx := by
  obtain ⟨t1, ht1⟩ := h1
  obtain ⟨t2, ht2⟩ := h2
  exact ⟨t1 ++ t2, by rw [ht2, ht1, List.append_assoc]⟩

theorem RefsPrefix_setDisc {st : SegState} {i : Nat} {d : Discussion} (idx : Nat)
    (hd : ∃ tl, d.reference_versions = (st.getDisc i).reference_versions ++ tl) :
    RefsPrefix st (st.setDisc i d) idx := by
  unfold RefsPrefix
  rw [getDisc_setDisc]
  split_ifs with hc
  · obtain ⟨hc1, -⟩ := hc; subst hc1; exact hd
  · exact ⟨[], by rw [List.append_nil]⟩

theorem RefsPrefix_push (st : SegState) (d : Discussion) (a : Option Nat) (idx : Nat) :
    RefsPrefix st { st with store := st.store ++ [d], active := a } idx := by
  unfold RefsPrefix
  by_cases hidx : idx < st.store.length
  · refine ⟨[], ?_⟩
    have hg : ({ st with store := st.store ++ [d], active := a } : SegState).getDisc idx =
        st.getDisc idx := by
      unfold SegState.getDisc
      exact List.getD_append _ _ _ _ hidx
    rw [hg, List.append_nil]
  · rw [getDisc_oob (Nat.le_of_not_lt hidx)]
    exact ⟨_, (List.nil_append _).symm⟩

theorem RefsPrefix_active (st : SegState) (a : Option Nat) (idx : Nat) :
    RefsPrefix st { st with active := a } idx :=
  RefsPrefix_of_store_eq rfl idx

theorem RefsPrefix_mergeIntoLast (st : SegState) (cI lI : Nat) (idx : Nat) :
    RefsPrefix st (mergeIntoLast st cI lI) idx := by
  unfold mergeIntoLast
  dsimp only
  split_ifs with h1 h2 h3
  · exact RefsPrefix_trans (RefsPrefix_trans
      (RefsPrefix_setDisc idx ⟨_, rfl⟩)
      (RefsPrefix_setDisc idx ⟨[], by rw [List.append_nil]⟩))
      (RefsPrefix_setDisc idx ⟨[], by rw [List.append_nil]⟩)
  · exact RefsPrefix_trans (RefsPrefix_setDisc idx ⟨_, rfl⟩)
      (RefsPrefix_setDisc idx ⟨[], by rw [List.append_nil]⟩)
  · exact RefsPrefix_trans (RefsPrefix_setDisc idx ⟨[], by rw [List.append_nil]⟩)
      (RefsPrefix_setDisc idx ⟨[], by rw [List.append_nil]⟩)
  · exact RefsPrefix_setDisc idx ⟨[], by rw [List.append_nil]⟩

theorem RefsPrefix_startOrReference (sg : SgData) (st : SegState) (e : Entry) (idx : Nat) :
    RefsPrefix st (startOrReference sg st e) idx := by
  unfold startOrReference
  dsimp only
  split_ifs with h1
  · exact RefsPrefix_push st _ _ idx
  · cases hlast : st.finalized.getLast? with
    | some j =>
      dsimp only
      split_ifs with h2
      · exact RefsPrefix_trans (RefsPrefix_trans
          (RefsPrefix_setDisc idx ⟨_, rfl⟩)
          (RefsPrefix_setDisc idx ⟨[], by rw [List.append_nil]⟩))
          (RefsPrefix_active _ _ idx)
      · exact RefsPrefix_trans (RefsPrefix_setDisc idx ⟨[], by rw [List.append_nil]⟩)
          (RefsPrefix_active _ _ idx)
    | none => exact RefsPrefix_push st _ _ idx

theorem RefsPrefix_mergeOrFinalize (R : Int) (st : SegState) (i : Nat) (idx : Nat) :
    RefsPrefix st (mergeOrFinalize R st i) idx := by
  unfold mergeOrFinalize
  cases hlast : st.finalized.getLast? with
  | none => exact RefsPrefix_of_store_eq rfl idx
  | some lastIdx =>
    dsimp only
    split_ifs
    · exact RefsPrefix_mergeIntoLast st i lastIdx idx
    · exact RefsPrefix_of_store_eq rfl idx

theorem RefsPrefix_step (sg : SgData) (R : Int) (st : SegState) (e : Entry) (idx : Nat) :
    RefsPrefix st (stepEntry sg R st e) idx := by
  by_cases h1 : vOf e = "" ∨ e.timestamp = ""
  · rcases ha : st.active with _ | i
    · rw [stepEntry_skip_none h1 ha]; exact RefsPrefix_refl st idx
    · rw [stepEntry_skip_some h1 ha]
      exact RefsPrefix_setDisc idx ⟨[], by rw [List.append_nil]⟩
  · rcases ha : st.active with _ | i
    · by_cases h2 : vOf e ∈ sgKeys sg
      · rw [stepEntry_first_known h1 ha h2]; exact RefsPrefix_push st _ _ idx
      · rw [stepEntry_first_unknown h1 ha h2]; exact RefsPrefix_refl st idx
    · by_cases h2 : vOf e = (st.getDisc i).version_id
      · rw [stepEntry_continue h1 ha h2]
        exact RefsPrefix_setDisc idx ⟨[], by rw [List.append_nil]⟩
      · rw [stepEntry_switch h1 ha h2]
        exact RefsPrefix_trans (RefsPrefix_mergeOrFinalize R st i idx)
          (RefsPrefix_startOrReference sg _ e idx)

theorem RefsPrefix_finalize_final (R : Int) (st : SegState) (idx : Nat) :
    RefsPrefix st (finalize_final R st) idx := by
  unfold finalize_final
  cases st.active with
  | none => exact RefsPrefix_refl st idx
  | some i =>
    dsimp only
    cases st.finalized.getLast? with
    | none => exact RefsPrefix_of_store_eq rfl idx
    | some lastIdx =>
      dsimp only
      split_ifs
      · exact RefsPrefix_mergeIntoLast st i lastIdx idx
      · exact RefsPrefix_of_store_eq rfl idx

-- ### Claim C5

/-- Claim C5: every discussion produced by the segmenter never lists its own
version id among its `reference_versions` and holds at most one entry per
referenced version id; moreover, during processing an existing reference list
is only ever appended to (`RefsPrefix`), so the timestamp recorded at a
referenced id's first occurrence is retained. -/
theorem c5_reference_versions_invariant (events : List Entry) (sg : SgData) (R : Int) :
    (∀ d ∈ analyze_version_discussions events sg R,
        d.version_id ∉ d.reference_versions.map Prod.fst ∧
        (d.reference_versions.map Prod.fst).Nodup) ∧
    (∀ (st : SegState) (e : Entry) (idx : Nat), RefsPrefix st (stepEntry sg R st e) idx) ∧
    (∀ (st : SegState) (idx : Nat), RefsPrefix st (finalize_final R st) idx) := by
  refine ⟨?_, fun st e idx => RefsPrefix_step sg R st e idx,
    fun st idx => RefsPrefix_finalize_final R st idx⟩
  intro d hd
  unfold analyze_version_discussions at hd
  cases events with
  | nil => simp at hd
  | cons x xs =>
    dsimp only at hd
    rw [List.mem_map] at hd
    obtain ⟨i, hi, hdi⟩ := hd
    have hrg : RefGood ((finalize_final R (runSeg sg R (x :: xs))).getDisc i) :=
      RefGood_getDisc (RefInv_finalize_final (RefInv_runSeg sg R (x :: xs))) i
    rw [← hdi]
    exact hrg

/-- Witness for C5 at a concrete run containing a merged brief reference. -/
theorem c5_witness :
    ((analyze_version_discussions
        [⟨"00:00:00", "A", "a", some "101"⟩, ⟨"00:00:40", "A", "b", some "101"⟩,
         ⟨"00:00:45", "B", "c", some "999"⟩]
        [("101", "n1")] 30).getD 0 default).version_id ∉
      (((analyze_version_discussions
        [⟨"00:00:00", "A", "a", some "101"⟩, ⟨"00:00:40", "A", "b", some "101"⟩,
         ⟨"00:00:45", "B", "c", some "999"⟩]
        [("101", "n1")] 30).getD 0 default).reference_versions.map Prod.fst) ∧
    (((analyze_version_discussions
        [⟨"00:00:00", "A", "a", some "101"⟩, ⟨"00:00:40", "A", "b", some "101"⟩,
         ⟨"00:00:45", "B", "c", some "999"⟩]
        [("101", "n1")] 30).getD 0 default).reference_versions.map Prod.fst).Nodup :=
  (c5_reference_versions_invariant
      [⟨"00:00:00", "A", "a", some "101"⟩, ⟨"00:00:40", "A", "b", some "101"⟩,
       ⟨"00:00:45", "B", "c", some "999"⟩]
      [("101", "n1")] 30).1 _ (by decide)

-- ### Time bounds (for C6)

/-- All stored discussions have `start_time <= end_time` and `end_time <= b`
(Python string order). -/
def TimeB (st : SegState) (b : String) : Prop :=
  ∀ d ∈ st.store, pyStrLe d.start_time d.end_time = true ∧ pyStrLe d.end_time b = true

theorem TimeB_getDisc {st : SegState} {b : String} (h : TimeB st b) (i : Nat) :
    pyStrLe (st.getDisc i).start_time (st.getDisc i).end_time = true ∧
    pyStrLe (st.getDisc i).end_time b = true := by
  by_cases hi : i < st.store.length
  · have hval : st.getDisc i = st.store[i] := by
      unfold SegState.getDisc
      exact List.getD_eq_getElem _ _ hi
    rw [hval]
    exact h _ (List.getElem_mem hi)
  · rw [getDisc_oob (Nat.le_of_not_lt hi)]
    exact ⟨pyStrLe_refl _, pyStrLe_empty b⟩

theorem TimeB_weaken {st : SegState} {b b2 : String} (h : TimeB st b)
    (hb : pyStrLe b b2 = true) : TimeB st b2 := by
  intro d hd
  obtain ⟨h1, h2⟩ := h d hd
  exact ⟨h1, pyStrLe_trans h2 hb⟩

theorem TimeB_setDisc {st : SegState} {b : String} {i : Nat} {d : Discussion}
    (h : TimeB st b) (hd1 : pyStrLe d.start_time d.end_time = true)
    (hd2 : pyStrLe d.end_time b = true) : TimeB (st.setDisc i d) b := by
  intro d2 hd2m
  unfold SegState.setDisc at hd2m
  rcases List.mem_or_eq_of_mem_set hd2m with hm | hm
  · exact h d2 hm
  · rw [hm]; exact ⟨hd1, hd2⟩

theorem TimeB_store_eq {st st2 : SegState} {b : String} (hs : st2.store = st.store)
    (h : TimeB st b) : TimeB st2 b := by
  intro d hd
  rw [hs] at hd
  exact h d hd

theorem TimeB_push {st : SegState} {b : String} {d : Discussion} {a : Option Nat}
    (h : TimeB st b) (hd1 : pyStrLe d.start_time d.end_time = true)
    (hd2 : pyStrLe d.end_time b = true) :
    TimeB { st with store := st.store ++ [d], active := a } b := by
  intro d2 hd2m
  rcases List.mem_append.mp hd2m with hm | hm
  · exact h d2 hm
  · have : d2 = d := by simpa using hm
    rw [this]; exact ⟨hd1, hd2⟩

theorem mergeIntoLast_oob {st : SegState} {cI lI : Nat} (h : st.store.length ≤ lI) :
    mergeIntoLast st cI lI = st := by
  unfold mergeIntoLast
  dsimp only
  split_ifs <;> simp only [setDisc_oob h]

theorem mem_store_getDisc {st : SegState} {d : Discussion} (hd : d ∈ st.store) :
    ∃ idx, idx < st.store.length ∧ d = st.getDisc idx := by
  rw [List.mem_iff_getElem] at hd
  obtain ⟨idx, hidx, hde⟩ := hd
  refine ⟨idx, hidx, ?_⟩
  unfold SegState.getDisc
  rw [List.getD_eq_getElem _ _ hidx]
  exact hde.symm

theorem TimeB_mergeIntoLast {st : SegState} {b : String} (h : TimeB st b)
    (cI lI : Nat) : TimeB (mergeIntoLast st cI lI) b := by
  by_cases hl : lI < st.store.length
  · intro d hd
    obtain ⟨idx, hidx, hde⟩ := mem_store_getDisc hd
    subst hde
    by_cases hil : idx = lI
    · subst hil
      obtain ⟨f1, f2, f3⟩ := mergeIntoLast_fields st cI idx idx
      rw [f2, mergeIntoLast_end_last st cI idx hl]
      split_ifs with hlt
      · exact ⟨pyStrLe_trans (TimeB_getDisc h idx).1 (pyStrLe_of_pyStrLt hlt),
          (TimeB_getDisc h cI).2⟩
      · exact TimeB_getDisc h idx
    · rw [mergeIntoLast_getDisc_ne st cI lI idx hil]
      exact TimeB_getDisc h idx
  · rw [mergeIntoLast_oob (Nat.le_of_not_lt hl)]
    exact h

theorem TimeB_active {st : SegState} {b : String} {a : Option Nat} (h : TimeB st b) :
    TimeB { st with active := a } b := h

theorem getDisc_set_raw (store : List Discussion) (f : List Nat) (a : Option Nat)
    (j : Nat) (d : Discussion) :
    ({ store := store.set j d, finalized := f, active := a } : SegState).getDisc j =
      if j < store.length then d else default := by
  unfold SegState.getDisc
  dsimp only
  rw [List.getD_eq_getElem?_getD, List.getElem?_set]
  simp only [if_pos rfl]
  split_ifs <;> simp

theorem TimeB_startOrReference {sg : SgData} {st : SegState} {e : Entry} {b : String}
    (h : TimeB st b) (ht : pyStrLe b e.timestamp = true) :
    TimeB (startOrReference sg st e) e.timestamp := by
  have hw : TimeB st e.timestamp := TimeB_weaken h ht
  unfold startOrReference
  dsimp only
  split_ifs with h1
  · exact TimeB_push hw (pyStrLe_refl _) (pyStrLe_refl _)
  · cases hlast : st.finalized.getLast? with
    | none => exact TimeB_push hw (pyStrLe_refl _) (pyStrLe_refl _)
    | some j =>
      have hsj : pyStrLe (st.getDisc j).start_time e.timestamp :=
        pyStrLe_trans (TimeB_getDisc hw j).1 (TimeB_getDisc hw j).2
      dsimp only
      split_ifs with h2
      · intro d hd
        dsimp only [SegState.setDisc] at hd
        rcases List.mem_or_eq_of_mem_set hd with hd2 | hd2
        · rcases List.mem_or_eq_of_mem_set hd2 with hd3 | hd3
          · exact hw d hd3
          · rw [hd3]
            exact ⟨(TimeB_getDisc hw j).1, (TimeB_getDisc hw j).2⟩
        · rw [hd2]
          refine ⟨?_, pyStrLe_refl _⟩
          dsimp only
          rw [getDisc_set_raw]
          split_ifs with hc
          · exact hsj
          · exact pyStrLe_empty _
      · intro d hd
        dsimp only [SegState.setDisc] at hd
        rcases List.mem_or_eq_of_mem_set hd with hd2 | hd2
        · exact hw d hd2
        · rw [hd2]
          exact ⟨hsj, pyStrLe_refl _⟩

theorem TimeB_mergeOrFinalize {R : Int} {st : SegState} {i : Nat} {b : String}
    (h : TimeB st b) : TimeB (mergeOrFinalize R st i) b := by
  unfold mergeOrFinalize
  cases hlast : st.finalized.getLast? with
  | none => exact TimeB_store_eq rfl h
  | some lastIdx =>
    dsimp only
    split_ifs
    · exact TimeB_mergeIntoLast h i lastIdx
    · exact TimeB_store_eq rfl h

theorem TimeB_step {sg : SgData} {R : Int} {st : SegState} {e : Entry} {b : String}
    (h : TimeB st b) (hb : e.timestamp ≠ "" → pyStrLe b e.timestamp = true) :
    TimeB (stepEntry sg R st e) (if e.timestamp = "" then b else e.timestamp) := by
  by_cases hts : e.timestamp = ""
  · rw [if_pos hts]
    rcases ha : st.active with _ | i
    · rw [stepEntry_skip_none (Or.inr hts) ha]; exact h
    · rw [stepEntry_skip_some (Or.inr hts) ha]
      refine TimeB_setDisc h ?_ ?_
      · exact (TimeB_getDisc h i).1
      · exact (TimeB_getDisc h i).2
  · rw [if_neg hts]
    have ht : pyStrLe b e.timestamp = true := hb hts
    have hw : TimeB st e.timestamp := TimeB_weaken h ht
    by_cases h1 : vOf e = ""
    · rcases ha : st.active with _ | i
      · rw [stepEntry_skip_none (Or.inl h1) ha]; exact hw
      · rw [stepEntry_skip_some (Or.inl h1) ha]
        refine TimeB_setDisc hw ?_ ?_
        · exact (TimeB_getDisc hw i).1
        · exact (TimeB_getDisc hw i).2
    · have hcond : ¬(vOf e = "" ∨ e.timestamp = "") := by tauto
      rcases ha : st.active with _ | i
      · by_cases hk : vOf e ∈ sgKeys sg
        · rw [stepEntry_first_known hcond ha hk]
          exact TimeB_push hw (pyStrLe_refl _) (pyStrLe_refl _)
        · rw [stepEntry_first_unknown hcond ha hk]; exact hw
      · by_cases hsame : vOf e = (st.getDisc i).version_id
        · rw [stepEntry_continue hcond ha hsame]
          refine TimeB_setDisc hw ?_ ?_
          · exact pyStrLe_trans (TimeB_getDisc hw i).1 (TimeB_getDisc hw i).2
          · exact pyStrLe_refl _
        · rw [stepEntry_switch hcond ha hsame]
          exact TimeB_startOrReference (TimeB_mergeOrFinalize h) ht

theorem TimeB_finalize_final {R : Int} {st : SegState} {b : String} (h : TimeB st b) :
    TimeB (finalize_final R st) b := by
  unfold finalize_final
  cases st.active with
  | none => exact h
  | some i =>
    dsimp only
    cases st.finalized.getLast? with
    | none => exact TimeB_store_eq rfl h
    | some lastIdx =>
      dsimp only
      split_ifs
      · exact TimeB_mergeIntoLast h i lastIdx
      · exact TimeB_store_eq rfl h

-- ### Per-index monotonicity of discussion times (for C6)

/-- Between two states, every discussion index valid in the first keeps its
`start_time` and its `end_time` does not decrease. -/
def StMono (st st2 : SegState) : Prop :=
  ∀ idx, idx < st.store.length →
    (st2.getDisc idx).start_time = (st.getDisc idx).start_time ∧
    pyStrLe (st.getDisc idx).end_time (st2.getDisc idx).end_time = true

theorem StMono_refl (st : SegState) : StMono st st :=
  fun _ _ => ⟨rfl, pyStrLe_refl _⟩

theorem StMono_store_eq {st st2 : SegState} (hs : st2.store = st.store) :
    StMono st st2 := by
  intro idx _
  have hg : st2.getDisc idx = st.getDisc idx := by
    unfold SegState.getDisc
    rw [hs]
  rw [hg]
  exact ⟨rfl, pyStrLe_refl _⟩

theorem StMono_trans {st1 st2 st3 : SegState} (h12 : StMono st1 st2)
    (h23 : StMono st2 st3) (hlen : st1.store.length ≤ st2.store.length) :
    StMono st1 st3 := by
  intro idx hidx
  obtain ⟨a1, a2⟩ := h12 idx hidx
  obtain ⟨b1, b2⟩ := h23 idx (Nat.lt_of_lt_of_le hidx hlen)
  exact ⟨b1.trans a1, pyStrLe_trans a2 b2⟩

theorem StMono_setDisc {st : SegState} {i : Nat} {d : Discussion}
    (hs : d.start_time = (st.getDisc i).start_time)
    (he : pyStrLe (st.getDisc i).end_time d.end_time = true) :
    StMono st (st.setDisc i d) := by
  intro idx hidx
  rw [getDisc_setDisc]
  split_ifs with hc
  · obtain ⟨h1, -⟩ := hc
    subst h1
    exact ⟨hs, he⟩
  · exact ⟨rfl, pyStrLe_refl _⟩

theorem StMono_push (st : SegState) (d : Discussion) (a : Option Nat) :
    StMono st { st with store := st.store ++ [d], active := a } := by
  intro idx hidx
  have hg : ({ st with store := st.store ++ [d], active := a } : SegState).getDisc idx =
      st.getDisc idx := by
    unfold SegState.getDisc
    exact List.getD_append _ _ _ _ hidx
  rw [hg]
  exact ⟨rfl, pyStrLe_refl _⟩

theorem StMono_mergeIntoLast (st : SegState) (cI lI : Nat) :
    StMono st (mergeIntoLast st cI lI) := by
  intro idx hidx
  by_cases hil : idx = lI
  · subst hil
    by_cases hl : idx < st.store.length
    · refine ⟨(mergeIntoLast_fields st cI idx idx).2.1, ?_⟩
      rw [mergeIntoLast_end_last st cI idx hl]
      split_ifs with hlt
      · exact pyStrLe_of_pyStrLt hlt
      · exact pyStrLe_refl _
    · exact absurd hidx hl
  · rw [mergeIntoLast_getDisc_ne st cI lI idx hil]
    exact ⟨rfl, pyStrLe_refl _⟩

theorem StMono_mergeOrFinalize (R : Int) (st : SegState) (i : Nat) :
    StMono st (mergeOrFinalize R st i) := by
  unfold mergeOrFinalize
  cases hlast : st.finalized.getLast? with
  | none => exact StMono_store_eq rfl
  | some lastIdx =>
    dsimp only
    split_ifs
    · exact StMono_mergeIntoLast st i lastIdx
    · exact StMono_store_eq rfl

theorem startOrReference_unknown_oob {sg : SgData} {st : SegState} {e : Entry} {j : Nat}
    (h : vOf e ∉ sgKeys sg) (hlast : st.finalized.getLast? = some j)
    (hj : st.store.length ≤ j) :
    startOrReference sg st e = { st with active := some j } := by
  unfold startOrReference
  rw [if_neg h, hlast]
  dsimp only
  split_ifs <;> simp only [setDisc_oob hj]

theorem StMono_startOrReference {sg : SgData} {st : SegState} {e : Entry} {b : String}
    (hT : TimeB st b) (ht : pyStrLe b e.timestamp = true) :
    StMono st (startOrReference sg st e) := by
  by_cases h1 : vOf e ∈ sgKeys sg
  · rw [startOrReference_known h1]
    exact StMono_push st _ _
  · cases hlast : st.finalized.getLast? with
    | none =>
      rw [startOrReference_orphan h1 hlast]
      exact StMono_push st _ _
    | some j =>
      by_cases hj : j < st.store.length
      · obtain ⟨a1, a2, a3, f1, f2, f3, f4, f5, f6, f7⟩ :=
          startOrReference_unknown h1 hlast hj
        intro idx hidx
        by_cases hij : idx = j
        · subst hij
          refine ⟨f2, ?_⟩
          rw [f5]
          exact pyStrLe_trans (TimeB_getDisc hT idx).2 ht
        · rw [f7 idx hij]
          exact ⟨rfl, pyStrLe_refl _⟩
      · rw [startOrReference_unknown_oob h1 hlast (Nat.le_of_not_lt hj)]
        exact StMono_store_eq rfl

theorem StMono_step {sg : SgData} {R : Int} {st : SegState} {e : Entry} {b : String}
    (hT : TimeB st b) (hb : e.timestamp ≠ "" → pyStrLe b e.timestamp = true) :
    StMono st (stepEntry sg R st e) := by
  by_cases hskip : vOf e = "" ∨ e.timestamp = ""
  · rcases ha : st.active with _ | i
    · rw [stepEntry_skip_none hskip ha]; exact StMono_refl st
    · rw [stepEntry_skip_some hskip ha]
      refine StMono_setDisc ?_ ?_
      · rfl
      · exact pyStrLe_refl _
  · have hts : e.timestamp ≠ "" := fun hc => hskip (Or.inr hc)
    have ht : pyStrLe b e.timestamp = true := hb hts
    rcases ha : st.active with _ | i
    · by_cases hk : vOf e ∈ sgKeys sg
      · rw [stepEntry_first_known hskip ha hk]
        exact StMono_push st _ _
      · rw [stepEntry_first_unknown hskip ha hk]
        exact StMono_refl st
    · by_cases hsame : vOf e = (st.getDisc i).version_id
      · rw [stepEntry_continue hskip ha hsame]
        refine StMono_setDisc ?_ ?_
        · rfl
        · exact pyStrLe_trans (TimeB_getDisc hT i).2 ht
      · rw [stepEntry_switch hskip ha hsame]
        refine StMono_trans (StMono_mergeOrFinalize R st i)
          (StMono_startOrReference (TimeB_mergeOrFinalize hT) ht) ?_
        rw [mergeOrFinalize_length]

/-- The nonempty timestamps of an event list, in input order. -/
def nonemptyTs (events : List Entry) : List String :=
  (events.map (fun e => e.timestamp)).filter (fun t => !(t == ""))

theorem nonemptyTs_cons (e : Entry) (l : List Entry) :
    nonemptyTs (e :: l) =
      if e.timestamp = "" then nonemptyTs l else e.timestamp :: nonemptyTs l := by
  by_cases h : e.timestamp = "" <;> simp [nonemptyTs, h]

theorem nonemptyTs_append (l1 l2 : List Entry) :
    nonemptyTs (l1 ++ l2) = nonemptyTs l1 ++ nonemptyTs l2 := by
  simp [nonemptyTs]

theorem runSeg_take_succ (sg : SgData) (R : Int) (events : List Entry) (n : Nat)
    (hn : n < events.length) :
    runSeg sg R (events.take (n + 1)) =
      stepEntry sg R (runSeg sg R (events.take n)) events[n] := by
  have htake : events.take (n + 1) = events.take n ++ [events[n]] := by
    rw [List.take_succ, List.getElem?_eq_getElem hn]
    rfl
  rw [htake]
  unfold runSeg
  rw [List.foldl_append]
  rfl

theorem runSeg_time_aux (sg : SgData) (R : Int) (events : List Entry)
    (hsorted : List.Pairwise (fun a b2 => pyStrLe a b2 = true) (nonemptyTs events)) :
    ∀ n : Nat, ∃ b : String, TimeB (runSeg sg R (events.take n)) b ∧
      ∀ t ∈ nonemptyTs (events.drop n), pyStrLe b t = true := by
  have hsuffix : ∀ n : Nat,
      List.Pairwise (fun a b2 => pyStrLe a b2 = true) (nonemptyTs (events.drop n)) := by
    intro n
    have hsplit : nonemptyTs events = nonemptyTs (events.take n) ++ nonemptyTs (events.drop n) := by
      rw [← nonemptyTs_append, List.take_append_drop]
    rw [hsplit] at hsorted
    exact (List.pairwise_append.mp hsorted).2.1
  intro n
  induction n with
  | zero =>
    refine ⟨"", ?_, ?_⟩
    · intro d hd
      simp [runSeg, initSeg] at hd
    · intro t _
      exact pyStrLe_empty t
  | succ n ih =>
    obtain ⟨b, hT, hfut⟩ := ih
    by_cases hn : n < events.length
    · have hdropn : events.drop n = events[n] :: events.drop (n + 1) :=
        List.drop_eq_getElem_cons hn
      have hbound : events[n].timestamp ≠ "" → pyStrLe b events[n].timestamp = true := by
        intro hne
        refine hfut _ ?_
        rw [hdropn, nonemptyTs_cons, if_neg hne]
        exact List.mem_cons_self _ _
      refine ⟨if events[n].timestamp = "" then b else events[n].timestamp, ?_, ?_⟩
      · rw [runSeg_take_succ sg R events n hn]
        exact TimeB_step hT hbound
      · intro t htmem
        by_cases hne : events[n].timestamp = ""
        · rw [if_pos hne]
          refine hfut t ?_
          rw [hdropn, nonemptyTs_cons, if_pos hne]
          exact htmem
        · rw [if_neg hne]
          have hp := hsuffix n
          rw [hdropn, nonemptyTs_cons, if_neg hne] at hp
          exact (List.pairwise_cons.mp hp).1 t htmem
    · have hlen : events.length ≤ n := Nat.le_of_not_lt hn
      have htake : events.take (n + 1) = events.take n := by
        rw [List.take_of_length_le hlen, List.take_of_length_le (hlen.trans (Nat.le_succ n))]
      have hdrop : events.drop (n + 1) = [] :=
        List.drop_eq_nil_of_le (hlen.trans (Nat.le_succ n))
      refine ⟨b, by rw [htake]; exact hT, ?_⟩
      intro t htmem
      rw [hdrop] at htmem
      simp [nonemptyTs] at htmem

-- ### Claim C6

/-- Claim C6: over timestamp-sorted input (the nonempty timestamps are
non-decreasing in Python string order), every discussion satisfies
`start_time <= end_time` after every loop step, and folding one more event
into the state never changes any existing discussion's `start_time` nor
decreases its `end_time`; the discussions returned by
`analyze_version_discussions` also all satisfy `start_time <= end_time`. -/
theorem c6_time_monotonicity (sg : SgData) (R : Int) (events : List Entry)
    (hsorted : List.Pairwise (fun a b2 => pyStrLe a b2 = true) (nonemptyTs events)) :
    ∀ n : Nat,
      (∀ d ∈ (runSeg sg R (events.take n)).store,
        pyStrLe d.start_time d.end_time = true) ∧
      (∀ idx, idx < (runSeg sg R (events.take n)).store.length →
        ((runSeg sg R (events.take (n + 1))).getDisc idx).start_time =
          ((runSeg sg R (events.take n)).getDisc idx).start_time ∧
        pyStrLe ((runSeg sg R (events.take n)).getDisc idx).end_time
          ((runSeg sg R (events.take (n + 1))).getDisc idx).end_time = true) ∧
      (∀ d ∈ analyze_version_discussions events sg R,
        pyStrLe d.start_time d.end_time = true) := by
  intro n
  obtain ⟨b, hT, hfut⟩ := runSeg_time_aux sg R events hsorted n
  refine ⟨fun d hd => (hT d hd).1, ?_, ?_⟩
  · by_cases hn : n < events.length
    · have hdropn : events.drop n = events[n] :: events.drop (n + 1) :=
        List.drop_eq_getElem_cons hn
      have hbound : events[n].timestamp ≠ "" → pyStrLe b events[n].timestamp = true := by
        intro hne
        refine hfut _ ?_
        rw [hdropn, nonemptyTs_cons, if_neg hne]
        exact List.mem_cons_self _ _
      rw [runSeg_take_succ sg R events n hn]
      exact StMono_step hT hbound
    · have hlen : events.length ≤ n := Nat.le_of_not_lt hn
      have htake : events.take (n + 1) = events.take n := by
        rw [List.take_of_length_le hlen, List.take_of_length_le (hlen.trans (Nat.le_succ n))]
      rw [htake]
      exact StMono_refl _
  · obtain ⟨b2, hT2, -⟩ := runSeg_time_aux sg R events hsorted events.length
    rw [List.take_length] at hT2
    intro d hd
    unfold analyze_version_discussions at hd
    cases events with
    | nil => simp at hd
    | cons x xs =>
      dsimp only at hd
      rw [List.mem_map] at hd
      obtain ⟨i, hi, hdi⟩ := hd
      have hTF : TimeB (finalize_final R (runSeg sg R (x :: xs))) b2 :=
        TimeB_finalize_final hT2
      rw [← hdi]
      exact (TimeB_getDisc hTF i).1

/-- Witness for C6 at a concrete sorted run. -/
theorem c6_witness :
    pyStrLe ((runSeg [("101", "n")] 30
        ([⟨"00:00:05", "A", "x", some "101"⟩,
          ⟨"00:00:20", "A", "y", some "101"⟩].take 1)).getDisc 0).start_time
      ((runSeg [("101", "n")] 30
        ([⟨"00:00:05", "A", "x", some "101"⟩,
          ⟨"00:00:20", "A", "y", some "101"⟩].take 1)).getDisc 0).end_time = true :=
  (c6_time_monotonicity [("101", "n")] 30
      [⟨"00:00:05", "A", "x", some "101"⟩, ⟨"00:00:20", "A", "y", some "101"⟩]
      (by decide) 1).1 _ (by decide)

-- ### Claim C7

/-- Counterexample to C7: an event whose speaker is the `'Unknown'` default
with empty text emits nothing (the claim says a non-empty speaker yields the
placeholder line), and surrounding whitespace is stripped from emitted text
(the claim says the text is emitted verbatim); whitespace-only text is also
treated as empty. -/
theorem c7_counterexample :
    format_conversation [⟨"00:00:01", "Unknown", "", none⟩] = "" ∧
    "" ≠ "Unknown: [conversation occurred]" ∧
    format_conversation [⟨"00:00:01", "Alice", "  hi  ", none⟩] = "Alice: hi" ∧
    "Alice: hi" ≠ "Alice:   hi  " ∧
    format_conversation [⟨"00:00:01", "Bob", "   ", none⟩] =
      "Bob: [conversation occurred]" := by
  decide

theorem sortStable_eq_self {α : Type} {le : α → α → Bool} {l : List α}
    (h : List.Pairwise (fun a b2 => le a b2 = true) l) : sortStable le l = l := by
  induction l with
  | nil => rfl
  | cons x xs ih =>
    unfold sortStable
    rw [List.foldr_cons]
    have htail : sortStable le xs = xs := ih (List.pairwise_cons.mp h).2
    unfold sortStable at htail
    rw [htail]
    cases xs with
    | nil => rfl
    | cons y ys =>
      unfold insertStable
      rw [if_pos ((List.pairwise_cons.mp h).1 y (List.mem_cons_self y ys))]

/-- Claim C7 (amended): for an already timestamp-sorted event list (the sort
inside `format_conversation` is stable, so it is the identity there), the
formatter emits `"{speaker}: {text}"` with the text stripped of surrounding
whitespace when the stripped text is non-empty, the placeholder
`"{speaker}: [conversation occurred]"` when the stripped text is empty and
the speaker is non-empty and not the `'Unknown'` default, and nothing
otherwise; the lines are joined with newline and an empty list yields `""`. -/
theorem c7_format_stripped_lines (events : List Entry)
    (hsorted : List.Pairwise (fun a b2 => pyStrLe a.timestamp b2.timestamp = true) events) :
    format_conversation events =
      String.intercalate "\n" (events.filterMap (fun conv =>
        if (⟨pyStripChars conv.text.data⟩ : String) ≠ "" then
          some (conv.speaker ++ ": " ++ (⟨pyStripChars conv.text.data⟩ : String))
        else if conv.speaker ≠ "" ∧ conv.speaker ≠ "Unknown" then
          some (conv.speaker ++ ": [conversation occurred]")
        else none)) := by
  cases events with
  | nil => rfl
  | cons x xs =>
    unfold format_conversation
    dsimp only
    rw [sortStable_eq_self hsorted]

/-- Witness for C7 at a concrete sorted input. -/
theorem c7_witness :
    format_conversation
        [⟨"00:00:01", "Alice", "hi", none⟩, ⟨"00:00:02", "Bob", "", none⟩] =
      String.intercalate "\n"
        ([⟨"00:00:01", "Alice", "hi", none⟩,
          (⟨"00:00:02", "Bob", "", none⟩ : Entry)].filterMap (fun conv =>
          if (⟨pyStripChars conv.text.data⟩ : String) ≠ "" then
            some (conv.speaker ++ ": " ++ (⟨pyStripChars conv.text.data⟩ : String))
          else if conv.speaker ≠ "" ∧ conv.speaker ≠ "Unknown" then
            some (conv.speaker ++ ": [conversation occurred]")
          else none)) :=
  c7_format_stripped_lines
    [⟨"00:00:01", "Alice", "hi", none⟩, ⟨"00:00:02", "Bob", "", none⟩] (by decide)

-- ### Split/join lemmas for the parser (C8)

/-- Inverse of `pySplit`: re-join parts with the separator. -/
def joinParts (sep : Char) : List (List Char) → List Char
  | [] => []
  | [p] => p
  | p :: ps => p ++ sep :: joinParts sep ps

theorem pySplit_ne_nil (sep : Char) (l : List Char) : pySplit sep l ≠ [] := by
  cases l with
  | nil => simp [pySplit]
  | cons c rest =>
    unfold pySplit
    split_ifs
    · simp
    · cases h : pySplit sep rest <;> simp

theorem pySplit_joins (sep : Char) : ∀ l : List Char, joinParts sep (pySplit sep l) = l := by
  intro l
  induction l with
  | nil => rfl
  | cons c rest ih =>
    unfold pySplit
    split_ifs with hc
    · subst hc
      cases hps : pySplit c rest with
      | nil => exact absurd hps (pySplit_ne_nil c rest)
      | cons q qs =>
        rw [hps] at ih
        show joinParts c ([] :: q :: qs) = c :: rest
        unfold joinParts
        rw [ih]
        rfl
    · cases hps : pySplit sep rest with
      | nil => exact absurd hps (pySplit_ne_nil sep rest)
      | cons q qs =>
        rw [hps] at ih
        cases qs with
        | nil =>
          show joinParts sep [c :: q] = c :: rest
          unfold joinParts
          unfold joinParts at ih
          rw [ih]
        | cons q2 qs2 =>
          show joinParts sep ((c :: q) :: q2 :: qs2) = c :: rest
          unfold joinParts
          unfold joinParts at ih
          rw [← ih]
          rfl

theorem pySplit_parts_no_sep (sep : Char) :
    ∀ (l : List Char) (p : List Char), p ∈ pySplit sep l → sep ∉ p := by
  intro l
  induction l with
  | nil =>
    intro p hp
    have : p = [] := by simpa [pySplit] using hp
    subst this
    simp
  | cons c rest ih =>
    intro p hp
    unfold pySplit at hp
    split_ifs at hp with hc
    · rcases List.mem_cons.mp hp with hp2 | hp2
      · subst hp2; simp
      · exact ih p hp2
    · cases hps : pySplit sep rest with
      | nil => exact absurd hps (pySplit_ne_nil sep rest)
      | cons q qs =>
        rw [hps] at hp
        rcases List.mem_cons.mp hp with hp2 | hp2
        · subst hp2
          intro hmem
          rcases List.mem_cons.mp hmem with hm | hm
          · exact hc hm.symm
          · exact ih q (by rw [hps]; exact List.mem_cons_self q qs) hm
        · exact ih p (by rw [hps]; exact List.mem_cons_of_mem q hp2)

theorem pySplit_no_sep {sep : Char} {p : List Char} (h : sep ∉ p) :
    pySplit sep p = [p] := by
  induction p with
  | nil => rfl
  | cons c rest ih =>
    simp only [pySplit]
    rw [if_neg (fun hc => h (by rw [← hc]; exact List.mem_cons_self c rest))]
    rw [ih (fun hm => h (List.mem_cons_of_mem c hm))]

theorem pySplit_append_sep {sep : Char} {a : List Char} (r : List Char) (h : sep ∉ a) :
    pySplit sep (a ++ sep :: r) = a :: pySplit sep r := by
  induction a with
  | nil =>
    show pySplit sep (sep :: r) = [] :: pySplit sep r
    simp only [pySplit]
    rw [if_true]
  | cons c rest ih =>
    show pySplit sep (c :: (rest ++ sep :: r)) = (c :: rest) :: pySplit sep r
    simp only [pySplit]
    rw [if_neg (fun hc => h (by rw [← hc]; exact List.mem_cons_self c rest))]
    rw [ih (fun hm => h (List.mem_cons_of_mem c hm))]

theorem digVal_isDigit {c : Char} {v : Nat} (h : digVal c = some v) : c.isDigit = true := by
  unfold digVal at h
  split_ifs at h with hd <;> first | exact hd | exact Option.noConfusion h

theorem pyDigitsAux_chars :
    ∀ (k : Nat) (l : List Char), l.length ≤ k → ∀ (acc n : Nat),
      pyDigitsAux l acc = some n → ∀ ch ∈ l, ch.isDigit = true ∨ ch = '_' := by
  intro k
  induction k with
  | zero =>
    intro l hl acc n hp ch hch
    have hnil : l = [] := List.length_eq_zero.mp (Nat.le_zero.mp hl)
    subst hnil
    exact absurd hch (List.not_mem_nil ch)
  | succ k ih =>
    intro l hl acc n hp ch hch
    cases l with
    | nil => exact absurd hch (List.not_mem_nil ch)
    | cons c rest =>
      cases rest with
      | nil =>
        simp only [pyDigitsAux] at hp
        split_ifs at hp with hc
        cases hd : digVal c with
        | none =>
          rw [hd] at hp
          dsimp only at hp
          exact Option.noConfusion hp
        | some v =>
          rcases List.mem_cons.mp hch with h1 | h1
          · subst h1
            exact Or.inl (digVal_isDigit hd)
          · exact absurd h1 (List.not_mem_nil ch)
      | cons d rest2 =>
        simp only [pyDigitsAux] at hp
        split_ifs at hp with hc
        · cases hd : digVal d with
          | none =>
            rw [hd] at hp
            dsimp only at hp
            exact Option.noConfusion hp
          | some v =>
            rw [hd] at hp
            dsimp only at hp
            rcases List.mem_cons.mp hch with h1 | h1
            · subst h1
              exact Or.inr hc
            · rcases List.mem_cons.mp h1 with h2 | h2
              · subst h2
                exact Or.inl (digVal_isDigit hd)
              · refine ih rest2 ?_ _ n hp ch h2
                simp only [List.length_cons] at hl
                omega
        · cases hd : digVal c with
          | none =>
            rw [hd] at hp
            dsimp only at hp
            exact Option.noConfusion hp
          | some v =>
            rw [hd] at hp
            dsimp only at hp
            rcases List.mem_cons.mp hch with h1 | h1
            · subst h1
              exact Or.inl (digVal_isDigit hd)
            · refine ih (d :: rest2) ?_ _ n hp ch h1
              simp only [List.length_cons] at hl ⊢
              omega

theorem pyDigits_chars {l : List Char} {n : Nat} (hp : pyDigits l = some n) :
    ∀ ch ∈ l, ch.isDigit = true ∨ ch = '_' := by
  cases l with
  | nil => simp [pyDigits] at hp
  | cons c rest =>
    simp only [pyDigits] at hp
    cases hd : digVal c with
    | none =>
      rw [hd] at hp
      dsimp only at hp
      exact Option.noConfusion hp
    | some v =>
      rw [hd] at hp
      dsimp only at hp
      intro ch hch
      rcases List.mem_cons.mp hch with h1 | h1
      · subst h1
        exact Or.inl (digVal_isDigit hd)
      · exact pyDigitsAux_chars rest.length rest (Nat.le_refl _) _ n hp ch h1

theorem mem_of_strip (cs : List Char) :
    ∀ ch ∈ cs, ch ∈ pyStripChars cs ∨ isPySpace ch = true := by
  intro ch hch
  have hsplit1 : ch ∈ cs.takeWhile isPySpace ++ cs.dropWhile isPySpace := by
    rw [List.takeWhile_append_dropWhile]
    exact hch
  rcases List.mem_append.mp hsplit1 with hm | hm
  · exact Or.inr (List.mem_takeWhile_imp hm)
  · have hrev : ch ∈ (cs.dropWhile isPySpace).reverse := List.mem_reverse.mpr hm
    have hsplit2 : ch ∈ (cs.dropWhile isPySpace).reverse.takeWhile isPySpace ++
        (cs.dropWhile isPySpace).reverse.dropWhile isPySpace := by
      rw [List.takeWhile_append_dropWhile]
      exact hrev
    rcases List.mem_append.mp hsplit2 with h2 | h2
    · exact Or.inr (List.mem_takeWhile_imp h2)
    · refine Or.inl ?_
      unfold pyStripChars
      exact List.mem_reverse.mpr h2

theorem pyInt_no_colon {cs : List Char} {x : Int} (h : pyInt cs = some x) : ':' ∉ cs := by
  intro hmem
  rcases mem_of_strip cs ':' hmem with hin | hws
  · unfold pyInt at h
    cases hs : pyStripChars cs with
    | nil => rw [hs] at hin; simp at hin
    | cons c0 rest =>
      rw [hs] at h hin
      dsimp only at h
      split_ifs at h with h1 h2
      · subst h1
        cases hpd : pyDigits rest with
        | none => rw [hpd] at h; simp at h
        | some m =>
          rcases List.mem_cons.mp hin with h0 | h0
          · exact absurd h0 (by decide)
          · rcases pyDigits_chars hpd ':' h0 with hd | hd
            · exact absurd hd (by decide)
            · exact absurd hd (by decide)
      · subst h2
        cases hpd : pyDigits rest with
        | none => rw [hpd] at h; simp at h
        | some m =>
          rcases List.mem_cons.mp hin with h0 | h0
          · exact absurd h0 (by decide)
          · rcases pyDigits_chars hpd ':' h0 with hd | hd
            · exact absurd hd (by decide)
            · exact absurd hd (by decide)
      · cases hpd : pyDigits (c0 :: rest) with
        | none => rw [hpd] at h; simp at h
        | some m =>
          rcases pyDigits_chars hpd ':' hin with hd | hd
          · exact absurd hd (by decide)
          · exact absurd hd (by decide)
  · exact absurd hws (by decide)

-- ### Claim C8

/-- Counterexample to C8: `"99:00:00"` consists of three colon-separated
integers (99, 0 and 0), yet `parse_timestamp` returns `none`, because
`datetime(2000, 1, 1, 99, 0, 0)` raises `ValueError` (hour out of range)
which the function catches. -/
theorem c8_counterexample :
    parse_timestamp "99:00:00" = none ∧
    ("99:00:00" : String).data = ['9', '9'] ++ ':' :: (['0', '0'] ++ ':' :: ['0', '0']) ∧
    pyInt ['9', '9'] = some 99 ∧ pyInt ['0', '0'] = some 0 := by
  decide

/-- Claim C8 (amended): `parse_timestamp` returns a duration exactly when the
input splits as three colon-separated Python integer literals whose values
form a valid time of day (hours 0-23, minutes 0-59, seconds 0-59); every
other input - including the empty string and out-of-range fields such as
`"99:00:00"` - yields `none`, and the function is total (never raises). -/
theorem c8_parse_characterization (s : String) :
    (parse_timestamp s).isSome = true ↔
      ∃ (a b c : List Char) (hours minutes seconds : Int),
        s.data = a ++ ':' :: (b ++ ':' :: c) ∧
        pyInt a = some hours ∧ pyInt b = some minutes ∧ pyInt c = some seconds ∧
        0 ≤ hours ∧ hours < 24 ∧ 0 ≤ minutes ∧ minutes < 60 ∧
        0 ≤ seconds ∧ seconds < 60 := by
  constructor
  · intro h
    unfold parse_timestamp at h
    split_ifs at h with hs0
    · simp at h
    · rcases hsp : pySplit ':' s.data with _ | ⟨a, _ | ⟨b, _ | ⟨c, _ | ⟨d, rest⟩⟩⟩⟩ <;>
        rw [hsp] at h <;> try dsimp only at h
      · simp at h
      · simp at h
      · simp at h
      · rcases hia : pyInt a with _ | hours <;> rw [hia] at h <;> try dsimp only at h
        · simp at h
        · rcases hib : pyInt b with _ | minutes <;> rw [hib] at h <;> try dsimp only at h
          · simp at h
          · rcases hic : pyInt c with _ | seconds <;> rw [hic] at h <;> try dsimp only at h
            · simp at h
            · split_ifs at h with hr
              · obtain ⟨h1, h2, h3, h4, h5, h6⟩ := hr
                have hj := pySplit_joins ':' s.data
                rw [hsp] at hj
                exact ⟨a, b, c, hours, minutes, seconds, hj.symm, hia, hib, hic,
                  h1, h2, h3, h4, h5, h6⟩
              · simp at h
      · simp at h
  · rintro ⟨a, b, c, hours, minutes, seconds, hdata, ha, hb, hc, h1, h2, h3, h4, h5, h6⟩
    have hna : ':' ∉ a := pyInt_no_colon ha
    have hnb : ':' ∉ b := pyInt_no_colon hb
    have hnc : ':' ∉ c := pyInt_no_colon hc
    have hsplit : pySplit ':' s.data = [a, b, c] := by
      rw [hdata, pySplit_append_sep _ hna, pySplit_append_sep _ hnb, pySplit_no_sep hnc]
    have hs0 : ¬ s = "" := by
      intro h0
      subst h0
      have hempty : ([] : List Char) = a ++ ':' :: (b ++ ':' :: c) := hdata
      simp at hempty
    unfold parse_timestamp
    rw [if_neg hs0, hsplit]
    dsimp only
    rw [ha, hb, hc]
    dsimp only
    rw [if_pos ⟨h1, h2, h3, h4, h5, h6⟩]
    rfl
